import Mathlib

/-!
Verification of the UltiSnips snippet lexer
(plugin/UltiSnips/text_objects/_lexer.py): a shallow embedding of the
position-tracking character stream, the shared scanners, the token
recognizers and the tokenize driver, followed by theorems about them.

Loops of the source (`while True`) are embedded as structurally recursive
functions on an explicit fuel argument; every wrapper supplies
`remaining + 1` fuel, which is never exhausted because each iteration of
every loop of the source consumes at least one character (the fuel-zero
branches are termination artifacts, unreachable under the fuel bound the
wrappers establish; the lemmas below carry that bound).
-/

namespace UltiSnipsLexer

/-- Position: the (line, col) pair of UltiSnips.geometry.Position. -/
structure Pos where
  line : Nat
  col : Nat
deriving DecidableEq

/-- The state of `_TextIterator`: the immutable text, the index of the next
unread character, and the (line, col) position tracker. -/
structure It where
  text : List Char
  idx : Nat
  line : Nat
  col : Nat
deriving DecidableEq

/-- Characters not yet consumed; used only to compute fuel bounds. -/
def It.remaining (s : It) : Nat := s.text.length - s.idx

/-- `_TextIterator.pos`: the current Position snapshot. -/
def It.pos (s : It) : Pos := ⟨s.line, s.col⟩

/-- `_TextIterator.next`: returns and consumes one character, advancing the
position; `none` embeds the StopIteration raise.  The source tests
membership of the one-character string in the pair `('\n', '\r\n')`; the
second comparison is against a two-character string and can never hold for
a single character, which the embedding keeps verbatim. -/
def It.next (s : It) : Option (Char × It) :=
  match s.text[s.idx]? with
  | none => none
  | some rv =>
    if [rv] = "\n".toList ∨ [rv] = "\r\n".toList then
      some (rv, { s with idx := s.idx + 1, line := s.line + 1, col := 0 })
    else
      some (rv, { s with idx := s.idx + 1, col := s.col + 1 })

/-- `_TextIterator.peek(count)`: `count > 1` returns the slice (possibly
short or empty); otherwise the single next character, or `none` (Python
None) at end of input. -/
def It.peek (s : It) (count : Nat) : Option (List Char) :=
  if count > 1 then
    some ((s.text.drop s.idx).take count)
  else
    match s.text[s.idx]? with
    | some c => some [c]
    | none => none

/-- The exceptions the source can raise while scanning: StopIteration from
the stream, RuntimeError from the Visual transformation check, IndexError
from `lines[0]` on an empty `splitlines` result, TypeError from `None in
'\t '`, ValueError from `int('')`. -/
inductive LexErr where
  | stopIteration
  | runtimeError (msg : String)
  | indexError
  | typeError
  | valueError
deriving DecidableEq

/-- Result of a parsing step: either a value with the advanced stream, or an
exception carrying the stream state at the raise point. -/
abbrev PR (α : Type) := Except (LexErr × It) (α × It)

/-- Sequencing of parsing steps: exceptions propagate, values thread the
stream state. -/
def pbind {α β : Type} (r : PR α) (f : α → It → PR β) : PR β :=
  match r with
  | .error e => .error e
  | .ok (a, s) => f a s

/-- `stream.next()` as a parsing step raising StopIteration at the end. -/
def It.nextE (s : It) : PR Char :=
  match s.next with
  | none => .error (.stopIteration, s)
  | some (c, s1) => .ok (c, s1)

/-- Consume `n` characters, as the source's `for _ in range(n): stream.next()`. -/
def consumeN : Nat → It → PR Unit
  | 0, s => .ok ((), s)
  | n + 1, s => pbind s.nextE fun _ s1 => consumeN n s1

/-- `_unescape(text)`: removes one level of backslash escaping. -/
def unescape : List Char → List Char
  | [] => []
  | '\\' :: c :: rest => c :: unescape rest
  | c :: rest => c :: unescape rest

/-- The digit loop of `_parse_number`: while the lookahead is a decimal
digit, consume it and accumulate. -/
def parseNumberAuxF : Nat → It → List Char → List Char × It
  | 0, s, acc => (acc, s)  -- unreachable under the fuel bound
  | fuel + 1, s, acc =>
    match s.peek 1 with
    | some [c] =>
      if c.isDigit then
        match s.next with
        | some (_, s1) => parseNumberAuxF fuel s1 (acc ++ [c])
        | none => (acc, s)
      else (acc, s)
    | _ => (acc, s)

/-- Decimal value of a digit run, as `int` reads it. -/
def digitsToNat (ds : List Char) : Nat :=
  ds.foldl (fun n c => n * 10 + (c.toNat - 48)) 0

/-- `_parse_number(stream)`: consumes the digit run and returns its value;
`int('')` raises ValueError when no digit was there. -/
def parseNumber (s : It) : PR Nat :=
  match parseNumberAuxF (s.remaining + 1) s [] with
  | (ds, s1) => if ds.isEmpty then .error (.valueError, s1) else .ok (digitsToNat ds, s1)

/-- `EscapeCharToken.starts_here(stream, chars)`: the two-character
lookahead is a backslash followed by a character of `chars`. -/
def escapeStartsHere (chars : List Char) (s : It) : Bool :=
  match s.peek 2 with
  | some [a, b] => a = '\\' && chars.contains b
  | _ => false

/-- The loop body of `_parse_till_closing_brace`: tracks the brace nesting
depth, copies escaped braces through as two characters, stops after
consuming the brace that brings the depth to zero (not returned). -/
def parseTillClosingBraceF : Nat → It → List Char → Nat → PR (List Char)
  | 0, s, _, _ => .error (.stopIteration, s)  -- unreachable under the fuel bound
  | fuel + 1, s, rv, inBraces =>
    if escapeStartsHere ['{', '}'] s then
      pbind s.nextE fun c1 s1 =>
      pbind s1.nextE fun c2 s2 =>
      parseTillClosingBraceF fuel s2 (rv ++ [c1, c2]) inBraces
    else
      pbind s.nextE fun c s1 =>
      let ib := if c = '{' then inBraces + 1 else if c = '}' then inBraces - 1 else inBraces
      if ib = 0 then .ok (rv, s1)
      else parseTillClosingBraceF fuel s1 (rv ++ [c]) ib

/-- `_parse_till_closing_brace(stream)`: starts at depth 1 with empty
accumulator. -/
def parseTillClosingBrace (s : It) : PR (List Char) :=
  parseTillClosingBraceF (s.remaining + 1) s [] 1

/-- The inner `for char in chars` loop of `_parse_till_unescaped_char`: for
each stop character in turn, if an escaped occurrence starts here, copy the
two-character escape through and set the escaped flag. -/
def tillUnescapedInner : List Char → It → List Char → Bool → PR (List Char × Bool)
  | [], s, rv, escaped => .ok ((rv, escaped), s)
  | c :: cs, s, rv, escaped =>
    if escapeStartsHere [c] s then
      pbind s.nextE fun a s1 =>
      pbind s1.nextE fun b s2 =>
      tillUnescapedInner cs s2 (rv ++ [a, b]) true
    else tillUnescapedInner cs s rv escaped

/-- The outer `while True` loop of `_parse_till_unescaped_char`: after the
escape pass, when nothing was escaped consume one character, stopping at a
stop character (returned as the terminator). -/
def parseTillUnescapedCharF : Nat → List Char → It → List Char → PR (List Char × Char)
  | 0, _, s, _ => .error (.stopIteration, s)  -- unreachable under the fuel bound
  | fuel + 1, chars, s, rv =>
    pbind (tillUnescapedInner chars s rv false) fun (rv1, escaped) s1 =>
    if escaped then parseTillUnescapedCharF fuel chars s1 rv1
    else
      pbind s1.nextE fun c s2 =>
      if chars.contains c then .ok ((rv1, c), s2)
      else parseTillUnescapedCharF fuel chars s2 (rv1 ++ [c])

/-- `_parse_till_unescaped_char(stream, chars)`. -/
def parseTillUnescapedChar (s : It) (chars : List Char) : PR (List Char × Char) :=
  parseTillUnescapedCharF (s.remaining + 1) chars s []

/-- The kind-specific payload of each token class. -/
inductive TokenData where
  | tabStop (number : Nat) (initial_text : List Char)
  | visual (alternative_text : List Char)
      (search replace options : Option (List Char))
  | transformation (number : Nat) (search replace options : List Char)
  | mirror (number : Nat)
  | escapeChar (initial_text : Char)
  | shellCode (code : List Char)
  | pythonCode (code : List Char) (indent : String)
  | vimLCode (code : List Char)
  | endOfText
deriving DecidableEq

/-- A parsed token: `Token.__init__` records the stream position before and
after `_parse`; the embedding also records the consumed index span. -/
structure Token where
  start : Pos
  stop : Pos
  startIdx : Nat
  endIdx : Nat
  data : TokenData
deriving DecidableEq

/-- One event of a tokenize run: a yielded token, or one character the
driver consumed and discarded because no recognizer matched (the source
discards it silently; the embedding records it for the reconstruction
claims). -/
inductive Item where
  | tok (t : Token)
  | plain (i : Nat) (c : Char)
deriving DecidableEq

def TokenData.isEOT : TokenData → Bool
  | .endOfText => true
  | _ => false

def Item.isEOT : Item → Bool
  | .tok t => t.data.isEOT
  | .plain _ _ => false

def itemToken : Item → Option Token
  | .tok t => some t
  | .plain _ _ => none

/-- Continuation of the `\d+` part of a recognizer regex: skip further
digits, then require a character of `stops`. -/
def digitsThenStop (stops : List Char) : List Char → Bool
  | [] => false
  | c :: rest => if c.isDigit then digitsThenStop stops rest else stops.contains c

/-- The regex of `TabStopToken.CHECK`, found on a lookahead window. -/
def matchTabStopWindow : List Char → Bool
  | '$' :: '{' :: c :: rest => c.isDigit && digitsThenStop [':', '}'] rest
  | _ => false

/-- The regex of `TransformationToken.CHECK`, found on a lookahead window. -/
def matchTransformationWindow : List Char → Bool
  | '$' :: '{' :: c :: rest => c.isDigit && digitsThenStop ['/'] rest
  | _ => false

/-- The regex of `VisualToken.CHECK`, found on a lookahead window. -/
def matchVisualWindow : List Char → Bool
  | '$' :: '{' :: 'V' :: 'I' :: 'S' :: 'U' :: 'A' :: 'L' :: c :: _ =>
      c = ':' || c = '}' || c = '/'
  | _ => false

/-- The regex of `MirrorToken.CHECK`, found on a lookahead window. -/
def matchMirrorWindow : List Char → Bool
  | '$' :: c :: _ => c.isDigit
  | _ => false

/-- The ASCII part of the regex class backslash-s used by the code-token
predicates. -/
def isPySpace (c : Char) : Bool :=
  c = ' ' || c = '\t' || c = '\n' || c = '\r' || c = '\x0b' || c = '\x0c'

/-- The regex of `PythonCodeToken.CHECK`, found on a lookahead window. -/
def matchPythonWindow : List Char → Bool
  | '`' :: '!' :: 'p' :: c :: _ => isPySpace c
  | _ => false

/-- The regex of `VimLCodeToken.CHECK`, found on a lookahead window. -/
def matchVimLWindow : List Char → Bool
  | '`' :: '!' :: 'v' :: c :: _ => isPySpace c
  | _ => false

/-- The default escapable set of `EscapeCharToken.starts_here`. -/
def defaultEscapeChars : List Char := ['{', '}', '\\', '$', '`']

def tabStopStartsHere (s : It) : Bool :=
  match s.peek 10 with
  | some w => matchTabStopWindow w
  | none => false

def visualStartsHere (s : It) : Bool :=
  match s.peek 10 with
  | some w => matchVisualWindow w
  | none => false

def transformationStartsHere (s : It) : Bool :=
  match s.peek 10 with
  | some w => matchTransformationWindow w
  | none => false

def mirrorStartsHere (s : It) : Bool :=
  match s.peek 10 with
  | some w => matchMirrorWindow w
  | none => false

def pythonStartsHere (s : It) : Bool :=
  match s.peek 4 with
  | some w => matchPythonWindow w
  | none => false

def vimlStartsHere (s : It) : Bool :=
  match s.peek 4 with
  | some w => matchVimLWindow w
  | none => false

def shellStartsHere (s : It) : Bool :=
  s.peek 1 = some ['`']

/-- `if stream.peek() == ':': stream.next()` shared by TabStop and Visual. -/
def skipIfColon (s : It) : It :=
  if s.peek 1 = some [':'] then
    match s.next with
    | some (_, s1) => s1
    | none => s
  else s

/-- `EscapeCharToken._parse`: consume the backslash and the escaped
character, which becomes the payload. -/
def escapeCharParse (s : It) : PR TokenData :=
  pbind s.nextE fun _ s1 =>
  pbind s1.nextE fun c2 s2 =>
  .ok (.escapeChar c2, s2)

/-- `TabStopToken._parse`. -/
def tabStopParse (s : It) : PR TokenData :=
  pbind s.nextE fun _ s1 =>
  pbind s1.nextE fun _ s2 =>
  pbind (parseNumber s2) fun number s3 =>
  pbind (parseTillClosingBrace (skipIfColon s3)) fun txt s4 =>
  .ok (.tabStop number txt, s4)

/-- The message of the RuntimeError raised by `VisualToken._parse`. -/
def visualErrMsg : String := "Invalid ${VISUAL} transformation! Forgot to escape a '/'?"

/-- The three scans of the Visual transformation branch (the body of its
`try`): search and replace up to an unescaped slash, then the options up to
the closing brace. -/
def visualTransScans (s : It) : PR (List Char × List Char × List Char) :=
  pbind (parseTillUnescapedChar s ['/']) fun (se, _) s1 =>
  pbind (parseTillUnescapedChar s1 ['/']) fun (re, _) s2 =>
  pbind (parseTillClosingBrace s2) fun op s3 =>
  .ok ((se, re, op), s3)

/-- The prefix part of `VisualToken._parse`: consume the eight characters of
the marker, an optional colon, then scan the alternative text up to an
unescaped slash or closing brace. -/
def visualHead (s : It) : PR (List Char × Char) :=
  pbind (consumeN 8 s) fun _ s1 =>
  parseTillUnescapedChar (skipIfColon s1) ['/', '}']

/-- `VisualToken._parse`: when the alternative-text scan stopped at a slash,
run the transformation scans, converting their StopIteration into the fatal
RuntimeError. -/
def visualParse (s : It) : PR TokenData :=
  pbind (visualHead s) fun (txt, ch) s1 =>
  if ch = '/' then
    match visualTransScans s1 with
    | .error (.stopIteration, s2) => .error (.runtimeError visualErrMsg, s2)
    | .error e => .error e
    | .ok ((se, re, op), s2) => .ok (.visual (unescape txt) (some se) (some re) (some op), s2)
  else
    .ok (.visual (unescape txt) none none none, s1)

/-- `TransformationToken._parse`. -/
def transformationParse (s : It) : PR TokenData :=
  pbind s.nextE fun _ s1 =>
  pbind s1.nextE fun _ s2 =>
  pbind (parseNumber s2) fun number s3 =>
  pbind s3.nextE fun _ s4 =>
  pbind (parseTillUnescapedChar s4 ['/']) fun (se, _) s5 =>
  pbind (parseTillUnescapedChar s5 ['/']) fun (re, _) s6 =>
  pbind (parseTillClosingBrace s6) fun op s7 =>
  .ok (.transformation number se re op, s7)

/-- `MirrorToken._parse`. -/
def mirrorParse (s : It) : PR TokenData :=
  pbind s.nextE fun _ s1 =>
  pbind (parseNumber s1) fun number s2 =>
  .ok (.mirror number, s2)

/-- `ShellCodeToken._parse`. -/
def shellCodeParse (s : It) : PR TokenData :=
  pbind s.nextE fun _ s1 =>
  pbind (parseTillUnescapedChar s1 ['`']) fun (code, _) s2 =>
  .ok (.shellCode code, s2)

/-- Python line splitting (`str.splitlines`) over the line-break set. -/
def lineBreakChars : List Char :=
  ['\n', '\r', '\x0b', '\x0c', '\x1c', '\x1d', '\x1e', '\x85', '\u2028', '\u2029']

def splitlinesAux : List Char → List Char → List (List Char)
  | [], acc => if acc.isEmpty then [] else [acc.reverse]
  | [c], acc =>
    if lineBreakChars.contains c then [acc.reverse]
    else [(c :: acc).reverse]
  | c :: c2 :: rest, acc =>
    if c = '\r' then
      if c2 = '\n' then acc.reverse :: splitlinesAux rest []
      else acc.reverse :: splitlinesAux (c2 :: rest) []
    else if lineBreakChars.contains c then acc.reverse :: splitlinesAux (c2 :: rest) []
    else splitlinesAux (c2 :: rest) (c :: acc)

def splitlinesPy (cs : List Char) : List (List Char) := splitlinesAux cs []

/-- The indent-stripping step of `PythonCodeToken._parse`: with a non-empty
indent, the first line plus a newline, then every further line with
`len(indent)` leading characters sliced off, joined by newlines; `lines[0]`
raises IndexError when the code splits into no lines at all. -/
def pyDedent (indent : String) (code : List Char) : Except LexErr (List Char) :=
  if indent.length ≠ 0 then
    match splitlinesPy code with
    | [] => .error .indexError
    | l0 :: rest =>
      .ok (l0 ++ '\n' :: List.intercalate ['\n'] (rest.map (List.drop indent.length)))
  else .ok code

/-- `if stream.peek() in '\t ': stream.next()` of `PythonCodeToken._parse`;
Python raises TypeError when the peek returned None. -/
def pySkipOneWs (s : It) : PR Unit :=
  match s.peek 1 with
  | some cs =>
    if cs = ['\t'] ∨ cs = [' '] then
      match s.next with
      | some (_, s1) => .ok ((), s1)
      | none => .ok ((), s)
    else .ok ((), s)
  | none => .error (.typeError, s)

/-- `PythonCodeToken._parse`. -/
def pythonCodeParse (indent : String) (s : It) : PR TokenData :=
  pbind (consumeN 3 s) fun _ s1 =>
  pbind (pySkipOneWs s1) fun _ s2 =>
  pbind (parseTillUnescapedChar s2 ['`']) fun (code, _) s3 =>
  match pyDedent indent code with
  | .error e => .error (e, s3)
  | .ok dedented => .ok (.pythonCode dedented indent, s3)

/-- `VimLCodeToken._parse`: consumes the four marker characters (including
the whitespace) then scans to the closing backtick. -/
def vimLCodeParse (s : It) : PR TokenData :=
  pbind (consumeN 4 s) fun _ s1 =>
  pbind (parseTillUnescapedChar s1 ['`']) fun (code, _) s2 =>
  .ok (.vimLCode code, s2)

/-- The token classes of `__ALLOWED_TOKENS`, in source order. -/
inductive TokenClass where
  | escapeChar | visual | transformation | tabStop | mirror
  | pythonCode | vimLCode | shellCode
deriving DecidableEq

def allowedTokens : List TokenClass :=
  [.escapeChar, .visual, .transformation, .tabStop, .mirror,
   .pythonCode, .vimLCode, .shellCode]

/-- Dispatch of `starts_here` over the token classes. -/
def startsHere : TokenClass → It → Bool
  | .escapeChar, s => escapeStartsHere defaultEscapeChars s
  | .visual, s => visualStartsHere s
  | .transformation, s => transformationStartsHere s
  | .tabStop, s => tabStopStartsHere s
  | .mirror, s => mirrorStartsHere s
  | .pythonCode, s => pythonStartsHere s
  | .vimLCode, s => vimlStartsHere s
  | .shellCode, s => shellStartsHere s

/-- Dispatch of `_parse` over the token classes. -/
def parseToken : TokenClass → String → It → PR TokenData
  | .escapeChar, _, s => escapeCharParse s
  | .visual, _, s => visualParse s
  | .transformation, _, s => transformationParse s
  | .tabStop, _, s => tabStopParse s
  | .mirror, _, s => mirrorParse s
  | .pythonCode, indent, s => pythonCodeParse indent s
  | .vimLCode, _, s => vimLCodeParse s
  | .shellCode, _, s => shellCodeParse s

/-- The first token class of `__ALLOWED_TOKENS` whose predicate matches. -/
def firstMatch (s : It) : Option TokenClass :=
  allowedTokens.find? (fun t => startsHere t s)

/-- The driver loop of `tokenize`: parse a token from the first matching
recognizer (a StopIteration escaping a parse is caught and ends the run with
the EndOfText token; any other exception propagates), or consume and discard
one character when no recognizer matches; on exhaustion yield EndOfText. -/
def tokenizeLoopF : Nat → String → It → List Item × Option LexErr
  | 0, _, _ => ([], some .stopIteration)  -- unreachable under the fuel bound
  | fuel + 1, indent, s =>
    match firstMatch s with
    | some r =>
      match parseToken r indent s with
      | .ok (d, s1) =>
        let rest := tokenizeLoopF fuel indent s1
        (.tok ⟨s.pos, s1.pos, s.idx, s1.idx, d⟩ :: rest.1, rest.2)
      | .error (.stopIteration, s1) =>
        ([.tok ⟨s1.pos, s1.pos, s1.idx, s1.idx, .endOfText⟩], none)
      | .error (e, _) => ([], some e)
    | none =>
      match s.next with
      | some (c, s1) =>
        let rest := tokenizeLoopF fuel indent s1
        (.plain s.idx c :: rest.1, rest.2)
      | none =>
        ([.tok ⟨s.pos, s.pos, s.idx, s.idx, .endOfText⟩], none)

/-- `tokenize(text, indent, offset)`: the full run over a fresh stream. -/
def tokenize (text : String) (indent : String) (offset : Pos) : List Item × Option LexErr :=
  let s : It := ⟨text.toList, 0, offset.line, offset.col⟩
  tokenizeLoopF (s.remaining + 1) indent s

/-- The slice of the input an index span stands for. -/
def sliceText (text : List Char) (i j : Nat) : List Char :=
  (text.drop i).take (j - i)

def itemStart : Item → Nat
  | .tok t => t.startIdx
  | .plain i _ => i

def itemEnd : Item → Nat
  | .tok t => t.endIdx
  | .plain i _ => i + 1

/-- The input characters an item accounts for: a token's consumed span, or
the one discarded character. -/
def itemText (text : List Char) : Item → List Char
  | .tok t => sliceText text t.startIdx t.endIdx
  | .plain _ c => [c]

def itemsText (text : List Char) (items : List Item) : List Char :=
  (items.map (itemText text)).flatten

/-- Spans are in bounds, non-overlapping and non-decreasing, starting no
earlier than `lo`. -/
def ItemsOrdered (n : Nat) : Nat → List Item → Prop
  | _, [] => True
  | lo, it :: rest =>
      lo ≤ itemStart it ∧ itemStart it ≤ itemEnd it ∧ itemEnd it ≤ n ∧
      ItemsOrdered n (itemEnd it) rest

/-- The stream state a parsing step ends in, whether it returned a value or
raised. -/
def resState {α : Type} : PR α → It
  | .ok (_, t) => t
  | .error (_, t) => t

/-- How a parsing step may move the stream: the text is unchanged, the index
never moves backwards, and unless nothing was consumed the index stays
within the text (every consumption goes through `It.next`). -/
def Steps (s t : It) : Prop :=
  t.text = s.text ∧ s.idx ≤ t.idx ∧ (t.idx ≤ s.text.length ∨ t = s)

/-- The stream is exhausted. -/
def AtEnd (s : It) : Prop := s.text.length ≤ s.idx

/-- Every StopIteration raised by this parsing step was raised at an
exhausted stream (it came from a failing `next`), so under a well-formed
index the raise point is exactly the end of the text. -/
def StopOK {α : Type} (x : PR α) : Prop :=
  ∀ t : It, x = .error (.stopIteration, t) → t.next = none

/-- Every success of this parsing step consumed at least one character past
the index of `s`. -/
def GE1 {α : Type} (s : It) (x : PR α) : Prop :=
  ∀ (a : α) (t : It), x = .ok (a, t) → s.idx < t.idx

/-- A parse result never carries the EndOfText payload (that token is
synthesized only by the driver). -/
def NoEOTRes (x : PR TokenData) : Prop :=
  ∀ (d : TokenData) (t : It), x = .ok (d, t) → d.isEOT = false

/-- The pattern the claim ascribes to the TabStop predicate: the upcoming
input is the two marker characters, one or more decimal digits, then a colon
or closing brace. -/
def TabStopSpecPat (u : List Char) : Prop :=
  ∃ ds c r, u = '$' :: '{' :: (ds ++ c :: r) ∧ ds ≠ [] ∧
    (∀ d ∈ ds, d.isDigit = true) ∧ (c = ':' ∨ c = '}')

/-- The pattern with the ten-character lookahead window accounted for: the
digit run fits the window, so it has at most seven digits. -/
def TabStopSpecPatWin (u : List Char) : Prop :=
  ∃ ds c r, u = '$' :: '{' :: (ds ++ c :: r) ∧ ds ≠ [] ∧
    (∀ d ∈ ds, d.isDigit = true) ∧ (c = ':' ∨ c = '}') ∧ ds.length ≤ 7

theorem next_some_spec {s : It} {c : Char} {s' : It} (h : s.next = some (c, s')) :
    s'.text = s.text ∧ s'.idx = s.idx + 1 ∧ s.idx < s.text.length ∧
      s.text[s.idx]? = some c := by
  cases hg : s.text[s.idx]? with
  | none => simp [It.next, hg] at h
  | some rv =>
    have hlt : s.idx < s.text.length := (List.getElem?_eq_some_iff.mp hg).1
    simp only [It.next, hg] at h
    split at h <;>
      (simp only [Option.some.injEq, Prod.mk.injEq] at h;
       obtain ⟨hc, hs⟩ := h; subst hc; subst hs; exact ⟨rfl, rfl, hlt, rfl⟩)

theorem next_none_iff {s : It} : s.next = none ↔ s.text.length ≤ s.idx := by
  cases hg : s.text[s.idx]? with
  | none =>
    have hl := List.getElem?_eq_none_iff.mp hg
    simp only [It.next, hg]
    exact ⟨fun _ => hl, fun _ => trivial⟩
  | some rv =>
    have hlt : s.idx < s.text.length := (List.getElem?_eq_some_iff.mp hg).1
    simp only [It.next, hg]
    constructor
    · intro h
      split at h <;> cases h
    · intro h
      omega

theorem next_none_atEnd {s : It} (h : s.next = none) : AtEnd s :=
  next_none_iff.mp h

theorem next_remaining_lt {s : It} {c : Char} {s' : It} (h : s.next = some (c, s')) :
    s'.remaining < s.remaining := by
  obtain ⟨ht, hi, hlt, _⟩ := next_some_spec h
  unfold It.remaining
  rw [ht, hi]
  omega

theorem steps_refl (s : It) : Steps s s := ⟨rfl, le_refl _, Or.inr rfl⟩

theorem steps_trans {a b c : It} (h1 : Steps a b) (h2 : Steps b c) : Steps a c := by
  obtain ⟨t1, i1, d1⟩ := h1
  obtain ⟨t2, i2, d2⟩ := h2
  refine ⟨t2.trans t1, le_trans i1 i2, ?_⟩
  cases d2 with
  | inl h => exact Or.inl (by rw [t1] at h; exact h)
  | inr h => rw [h]; exact d1

theorem steps_of_next {s : It} {c : Char} {s' : It} (h : s.next = some (c, s')) :
    Steps s s' := by
  obtain ⟨ht, hi, hlt, _⟩ := next_some_spec h
  exact ⟨ht, by omega, Or.inl (by omega)⟩

theorem steps_wf {s t : It} (h : Steps s t) (hw : s.idx ≤ s.text.length) :
    t.idx ≤ t.text.length := by
  obtain ⟨ht, _, hd⟩ := h
  cases hd with
  | inl h1 => rw [ht]; exact h1
  | inr h1 => rw [h1]; exact hw

theorem steps_remaining_le {s t : It} (h : Steps s t) : t.remaining ≤ s.remaining := by
  obtain ⟨ht, hi, _⟩ := h
  unfold It.remaining
  rw [ht]
  omega

theorem resState_ok {α : Type} {x : PR α} {a : α} {s' : It} (h : x = .ok (a, s')) :
    resState x = s' := by rw [h]; rfl

theorem resState_error {α : Type} {x : PR α} {e : LexErr} {s' : It}
    (h : x = .error (e, s')) : resState x = s' := by rw [h]; rfl

theorem steps_ok {α : Type} {s : It} {x : PR α} {a : α} {s' : It}
    (h : x = .ok (a, s')) (hs : Steps s (resState x)) : Steps s s' := by
  rw [resState_ok h] at hs; exact hs

theorem steps_error {α : Type} {s : It} {x : PR α} {e : LexErr} {s' : It}
    (h : x = .error (e, s')) (hs : Steps s (resState x)) : Steps s s' := by
  rw [resState_error h] at hs; exact hs

theorem pbind_ok_elim {α β : Type} {x : PR α} {f : α → It → PR β} {b : β} {s' : It}
    (h : pbind x f = .ok (b, s')) :
    ∃ a t, x = .ok (a, t) ∧ f a t = .ok (b, s') := by
  cases hx : x with
  | error e => rw [hx] at h; exact absurd h (by simp [pbind])
  | ok p =>
    obtain ⟨a, t⟩ := p
    rw [hx] at h
    exact ⟨a, t, rfl, h⟩

theorem pbind_error_elim {α β : Type} {x : PR α} {f : α → It → PR β} {e : LexErr × It}
    (h : pbind x f = .error e) :
    x = .error e ∨ ∃ a t, x = .ok (a, t) ∧ f a t = .error e := by
  cases hx : x with
  | error e1 =>
    rw [hx] at h
    simp only [pbind] at h
    injection h with h1
    subst h1
    exact Or.inl rfl
  | ok p =>
    obtain ⟨a, t⟩ := p
    rw [hx] at h
    exact Or.inr ⟨a, t, rfl, h⟩

theorem steps_pbind {α β : Type} {s : It} {x : PR α} {f : α → It → PR β}
    (hx : Steps s (resState x))
    (hf : ∀ a t, x = .ok (a, t) → Steps t (resState (f a t))) :
    Steps s (resState (pbind x f)) := by
  cases hxe : x with
  | error e =>
    rw [hxe] at hx
    show Steps s (resState (pbind (Except.error e) f))
    simpa [pbind, resState] using hx
  | ok p =>
    obtain ⟨a, t⟩ := p
    have h1 : Steps s t := by rw [hxe] at hx; simpa [resState] using hx
    have h2 := hf a t hxe
    show Steps s (resState (pbind (Except.ok (a, t)) f))
    simpa [pbind] using steps_trans h1 h2

theorem nextE_ok_elim {s : It} {c : Char} {t : It} (h : s.nextE = .ok (c, t)) :
    s.next = some (c, t) := by
  cases hn : s.next with
  | none => simp [It.nextE, hn] at h
  | some p =>
    obtain ⟨c1, t1⟩ := p
    simp only [It.nextE, hn, Except.ok.injEq, Prod.mk.injEq] at h
    rw [h.1, h.2]

theorem nextE_error_elim {s : It} {e : LexErr} {t : It} (h : s.nextE = .error (e, t)) :
    e = .stopIteration ∧ t = s ∧ s.next = none := by
  cases hn : s.next with
  | none =>
    simp only [It.nextE, hn, Except.error.injEq, Prod.mk.injEq] at h
    exact ⟨h.1.symm, h.2.symm, rfl⟩
  | some p =>
    obtain ⟨c1, t1⟩ := p
    simp [It.nextE, hn] at h

theorem steps_nextE (s : It) : Steps s (resState s.nextE) := by
  cases hn : s.next with
  | none => simp only [It.nextE, hn]; exact steps_refl s
  | some p =>
    obtain ⟨c, t⟩ := p
    simp only [It.nextE, hn, resState]
    exact steps_of_next hn

theorem steps_consumeN (n : Nat) : ∀ s : It, Steps s (resState (consumeN n s)) := by
  induction n with
  | zero => intro s; exact steps_refl s
  | succ n ih =>
    intro s
    simp only [consumeN]
    exact steps_pbind (steps_nextE s) (fun a t _ => ih t)

theorem steps_parseNumberAuxF (fuel : Nat) :
    ∀ (s : It) (acc : List Char), Steps s (parseNumberAuxF fuel s acc).2 := by
  induction fuel with
  | zero => intro s acc; exact steps_refl s
  | succ fuel ih =>
    intro s acc
    unfold parseNumberAuxF
    split
    · split
      · split
        · next c s1 hn => exact steps_trans (steps_of_next hn) (ih s1 _)
        · exact steps_refl s
      · exact steps_refl s
    · exact steps_refl s

theorem steps_parseNumber (s : It) : Steps s (resState (parseNumber s)) := by
  have h := steps_parseNumberAuxF (s.remaining + 1) s []
  unfold parseNumber
  cases haux : parseNumberAuxF (s.remaining + 1) s [] with
  | mk ds s1 =>
    rw [haux] at h
    show Steps s (resState (if ds.isEmpty = true then Except.error (LexErr.valueError, s1)
      else Except.ok (digitsToNat ds, s1)))
    by_cases he : ds.isEmpty = true
    · rw [if_pos he]
      exact h
    · rw [if_neg he]
      exact h

theorem steps_skipIfColon (s : It) : Steps s (skipIfColon s) := by
  unfold skipIfColon
  split
  · cases hn : s.next with
    | none => exact steps_refl s
    | some p =>
      obtain ⟨c, s1⟩ := p
      exact steps_of_next hn
  · exact steps_refl s

theorem steps_ptcbF (fuel : Nat) :
    ∀ (s : It) (rv : List Char) (ib : Nat),
      Steps s (resState (parseTillClosingBraceF fuel s rv ib)) := by
  induction fuel with
  | zero => intro s rv ib; exact steps_refl s
  | succ fuel ih =>
    intro s rv ib
    unfold parseTillClosingBraceF
    split
    · exact steps_pbind (steps_nextE s) fun c1 s1 _ =>
        steps_pbind (steps_nextE s1) fun c2 s2 _ => ih s2 _ _
    · refine steps_pbind (steps_nextE s) fun c s1 _ => ?_
      dsimp only
      repeat' split
      all_goals first
        | (simp only [resState]; exact steps_refl s1)
        | exact ih s1 _ _

theorem steps_ptcb (s : It) : Steps s (resState (parseTillClosingBrace s)) := by
  unfold parseTillClosingBrace
  exact steps_ptcbF _ s [] 1

theorem steps_inner :
    ∀ (cs : List Char) (s : It) (rv : List Char) (esc : Bool),
      Steps s (resState (tillUnescapedInner cs s rv esc)) := by
  intro cs
  induction cs with
  | nil => intro s rv esc; exact steps_refl s
  | cons c cs ih =>
    intro s rv esc
    unfold tillUnescapedInner
    split
    · exact steps_pbind (steps_nextE s) fun a s1 _ =>
        steps_pbind (steps_nextE s1) fun b s2 _ => ih s2 _ _
    · exact ih s _ _

theorem steps_ptucF (fuel : Nat) :
    ∀ (chars : List Char) (s : It) (rv : List Char),
      Steps s (resState (parseTillUnescapedCharF fuel chars s rv)) := by
  induction fuel with
  | zero => intro chars s rv; exact steps_refl s
  | succ fuel ih =>
    intro chars s rv
    unfold parseTillUnescapedCharF
    refine steps_pbind (steps_inner chars s rv false) ?_
    rintro ⟨rv1, escaped⟩ s1 _
    dsimp only
    split
    · exact ih chars s1 rv1
    · refine steps_pbind (steps_nextE s1) fun c s2 _ => ?_
      split
      · exact steps_refl s2
      · exact ih chars s2 _

theorem steps_ptuc (s : It) (chars : List Char) :
    Steps s (resState (parseTillUnescapedChar s chars)) := by
  unfold parseTillUnescapedChar
  exact steps_ptucF _ chars s []

theorem steps_pySkipOneWs (s : It) : Steps s (resState (pySkipOneWs s)) := by
  unfold pySkipOneWs
  split
  · split
    · cases hn : s.next with
      | none => exact steps_refl s
      | some p =>
        obtain ⟨c, s1⟩ := p
        exact steps_of_next hn
    · exact steps_refl s
  · exact steps_refl s

theorem steps_visualTransScans (s : It) : Steps s (resState (visualTransScans s)) := by
  unfold visualTransScans
  refine steps_pbind (steps_ptuc s _) ?_
  rintro ⟨se, ch1⟩ s1 _
  dsimp only
  refine steps_pbind (steps_ptuc s1 _) ?_
  rintro ⟨re, ch2⟩ s2 _
  dsimp only
  exact steps_pbind (steps_ptcb s2) fun op s3 _ => steps_refl s3

theorem steps_visualHead (s : It) : Steps s (resState (visualHead s)) := by
  unfold visualHead
  exact steps_pbind (steps_consumeN 8 s) fun a s1 _ =>
    steps_trans (steps_skipIfColon s1) (steps_ptuc (skipIfColon s1) _)

theorem steps_visualParse (s : It) : Steps s (resState (visualParse s)) := by
  unfold visualParse
  refine steps_pbind (steps_visualHead s) ?_
  rintro ⟨txt, ch⟩ s1 _
  dsimp only
  split
  · have hts := steps_visualTransScans s1
    cases hv : visualTransScans s1 with
    | error e =>
      obtain ⟨e1, s2⟩ := e
      rw [hv] at hts
      cases e1 <;> exact hts
    | ok p =>
      obtain ⟨⟨se, re, op⟩, s2⟩ := p
      rw [hv] at hts
      exact hts
  · exact steps_refl s1

theorem steps_parseToken (r : TokenClass) (indent : String) (s : It) :
    Steps s (resState (parseToken r indent s)) := by
  cases r with
  | escapeChar =>
    exact steps_pbind (steps_nextE s) fun c1 s1 _ =>
      steps_pbind (steps_nextE s1) fun c2 s2 _ => steps_refl s2
  | visual => exact steps_visualParse s
  | transformation =>
    refine steps_pbind (steps_nextE s) fun c1 s1 _ => ?_
    refine steps_pbind (steps_nextE s1) fun c2 s2 _ => ?_
    refine steps_pbind (steps_parseNumber s2) fun n s3 _ => ?_
    refine steps_pbind (steps_nextE s3) fun c3 s4 _ => ?_
    refine steps_pbind (steps_ptuc s4 _) ?_
    rintro ⟨se, ch1⟩ s5 _
    dsimp only
    refine steps_pbind (steps_ptuc s5 _) ?_
    rintro ⟨re, ch2⟩ s6 _
    dsimp only
    exact steps_pbind (steps_ptcb s6) fun op s7 _ => steps_refl s7
  | tabStop =>
    refine steps_pbind (steps_nextE s) fun c1 s1 _ => ?_
    refine steps_pbind (steps_nextE s1) fun c2 s2 _ => ?_
    refine steps_pbind (steps_parseNumber s2) fun n s3 _ => ?_
    exact steps_pbind
      (steps_trans (steps_skipIfColon s3) (steps_ptcb (skipIfColon s3)))
      fun txt s4 _ => steps_refl s4
  | mirror =>
    exact steps_pbind (steps_nextE s) fun c1 s1 _ =>
      steps_pbind (steps_parseNumber s1) fun n s2 _ => steps_refl s2
  | pythonCode =>
    refine steps_pbind (steps_consumeN 3 s) fun a s1 _ => ?_
    refine steps_pbind (steps_pySkipOneWs s1) fun b s2 _ => ?_
    refine steps_pbind (steps_ptuc s2 _) ?_
    rintro ⟨code, ch⟩ s3 _
    dsimp only
    split
    · exact steps_refl s3
    · exact steps_refl s3
  | vimLCode =>
    refine steps_pbind (steps_consumeN 4 s) fun a s1 _ => ?_
    refine steps_pbind (steps_ptuc s1 _) ?_
    rintro ⟨code, ch⟩ s2 _
    dsimp only
    exact steps_refl s2
  | shellCode =>
    refine steps_pbind (steps_nextE s) fun c1 s1 _ => ?_
    refine steps_pbind (steps_ptuc s1 _) ?_
    rintro ⟨code, ch⟩ s2 _
    dsimp only
    exact steps_refl s2

theorem stopOK_pbind {α β : Type} {x : PR α} {f : α → It → PR β}
    (hx : StopOK x) (hf : ∀ a t, x = .ok (a, t) → StopOK (f a t)) :
    StopOK (pbind x f) := by
  intro t h
  rcases pbind_error_elim h with h1 | ⟨a, u, h1, h2⟩
  · exact hx t h1
  · exact hf a u h1 t h2

theorem stopOK_nextE (s : It) : StopOK s.nextE := by
  intro t h
  obtain ⟨_, hts, hn⟩ := nextE_error_elim h
  rw [hts]
  exact hn

theorem stopOK_consumeN (n : Nat) : ∀ s : It, StopOK (consumeN n s) := by
  induction n with
  | zero => intro s u h; simp [consumeN] at h
  | succ n ih =>
    intro s
    simp only [consumeN]
    exact stopOK_pbind (stopOK_nextE s) fun a t _ => ih t

theorem parseNumber_error {s : It} {e : LexErr} {t : It}
    (h : parseNumber s = .error (e, t)) : e = .valueError := by
  unfold parseNumber at h
  cases haux : parseNumberAuxF (s.remaining + 1) s [] with
  | mk ds s1 =>
    rw [haux] at h
    replace h : (if ds.isEmpty = true then (Except.error (LexErr.valueError, s1) : PR Nat)
        else Except.ok (digitsToNat ds, s1)) = .error (e, t) := h
    split at h
    · simp only [Except.error.injEq, Prod.mk.injEq] at h
      exact h.1.symm
    · simp at h

theorem stopOK_parseNumber (s : It) : StopOK (parseNumber s) := by
  intro t h
  have := parseNumber_error h
  simp at this

theorem stopOK_inner : ∀ (cs : List Char) (s : It) (rv : List Char) (esc : Bool),
    StopOK (tillUnescapedInner cs s rv esc) := by
  intro cs
  induction cs with
  | nil => intro s rv esc u h; simp [tillUnescapedInner] at h
  | cons c cs ih =>
    intro s rv esc
    unfold tillUnescapedInner
    split
    · exact stopOK_pbind (stopOK_nextE s) fun a t _ =>
        stopOK_pbind (stopOK_nextE t) fun b u _ => ih u _ _
    · exact ih s _ _

theorem inner_true_lt : ∀ (cs : List Char) (s : It) (rv rv1 : List Char) (s1 : It),
    tillUnescapedInner cs s rv false = .ok ((rv1, true), s1) →
      s1.remaining < s.remaining := by
  intro cs
  induction cs with
  | nil =>
    intro s rv rv1 s1 h
    simp [tillUnescapedInner] at h
  | cons c cs ih =>
    intro s rv rv1 s1 h
    unfold tillUnescapedInner at h
    split at h
    · obtain ⟨a, t1, h1, h'⟩ := pbind_ok_elim h
      try dsimp only at h'
      obtain ⟨b, t2, h2, h''⟩ := pbind_ok_elim h'
      try dsimp only at h''
      have st := steps_remaining_le (steps_ok h'' (steps_inner cs t2 _ true))
      have r1 := next_remaining_lt (nextE_ok_elim h1)
      have r2 := next_remaining_lt (nextE_ok_elim h2)
      omega
    · exact ih s rv rv1 s1 h

theorem stopOK_ptcbF : ∀ (fuel : Nat) (s : It) (rv : List Char) (ib : Nat),
    s.remaining < fuel → StopOK (parseTillClosingBraceF fuel s rv ib) := by
  intro fuel
  induction fuel with
  | zero => intro s rv ib hb; omega
  | succ fuel ih =>
    intro s rv ib hb
    unfold parseTillClosingBraceF
    split
    · refine stopOK_pbind (stopOK_nextE s) fun c1 s1 h1 => ?_
      refine stopOK_pbind (stopOK_nextE s1) fun c2 s2 h2 => ?_
      have r1 := next_remaining_lt (nextE_ok_elim h1)
      have r2 := next_remaining_lt (nextE_ok_elim h2)
      exact ih s2 _ _ (by omega)
    · refine stopOK_pbind (stopOK_nextE s) fun c s1 h1 => ?_
      have r1 := next_remaining_lt (nextE_ok_elim h1)
      dsimp only
      repeat' split
      all_goals first
        | (intro u h; simp at h)
        | exact ih s1 _ _ (by omega)

theorem stopOK_ptcb (s : It) : StopOK (parseTillClosingBrace s) :=
  stopOK_ptcbF _ s [] 1 (Nat.lt_succ_self _)

theorem stopOK_ptucF : ∀ (fuel : Nat) (chars : List Char) (s : It) (rv : List Char),
    s.remaining < fuel → StopOK (parseTillUnescapedCharF fuel chars s rv) := by
  intro fuel
  induction fuel with
  | zero => intro chars s rv hb; omega
  | succ fuel ih =>
    intro chars s rv hb
    unfold parseTillUnescapedCharF
    refine stopOK_pbind (stopOK_inner chars s rv false) ?_
    rintro ⟨rv1, escaped⟩ s1 h1
    dsimp only
    split
    · next hesc =>
      rw [hesc] at h1
      have hlt := inner_true_lt chars s rv rv1 s1 h1
      exact ih chars s1 rv1 (by omega)
    · refine stopOK_pbind (stopOK_nextE s1) fun c s2 h2 => ?_
      have r2 := next_remaining_lt (nextE_ok_elim h2)
      have rle := steps_remaining_le (steps_ok h1 (steps_inner chars s rv false))
      split
      · intro u h
        simp at h
      · exact ih chars s2 _ (by omega)

theorem stopOK_ptuc (s : It) (chars : List Char) :
    StopOK (parseTillUnescapedChar s chars) :=
  stopOK_ptucF _ chars s [] (Nat.lt_succ_self _)

theorem stopOK_pySkipOneWs (s : It) : StopOK (pySkipOneWs s) := by
  intro t h
  unfold pySkipOneWs at h
  repeat' split at h
  all_goals simp at h

theorem pyDedent_error {indent : String} {code : List Char} {e : LexErr}
    (h : pyDedent indent code = .error e) : e = .indexError := by
  unfold pyDedent at h
  split at h
  · split at h
    · simp only [Except.error.injEq] at h
      exact h.symm
    · simp at h
  · simp at h

theorem stopOK_visualTransScans (s : It) : StopOK (visualTransScans s) := by
  unfold visualTransScans
  refine stopOK_pbind (stopOK_ptuc s _) ?_
  rintro ⟨se, ch1⟩ s1 _
  dsimp only
  refine stopOK_pbind (stopOK_ptuc s1 _) ?_
  rintro ⟨re, ch2⟩ s2 _
  dsimp only
  refine stopOK_pbind (stopOK_ptcb s2) fun op s3 _ => ?_
  intro u h
  simp at h

theorem stopOK_visualHead (s : It) : StopOK (visualHead s) := by
  unfold visualHead
  exact stopOK_pbind (stopOK_consumeN 8 s) fun a t _ => stopOK_ptuc (skipIfColon t) _

theorem stopOK_visualParse (s : It) : StopOK (visualParse s) := by
  unfold visualParse
  refine stopOK_pbind (stopOK_visualHead s) ?_
  rintro ⟨txt, ch⟩ s1 _
  dsimp only
  split
  · intro t h
    split at h
    · simp at h
    · rename_i pr e hno heq
      injection h with h1
      exact (hno t h1).elim
    · simp at h
  · intro t h
    simp at h

theorem stopOK_parseToken (r : TokenClass) (indent : String) (s : It) :
    StopOK (parseToken r indent s) := by
  cases r with
  | escapeChar =>
    refine stopOK_pbind (stopOK_nextE s) fun c1 s1 _ => ?_
    refine stopOK_pbind (stopOK_nextE s1) fun c2 s2 _ => ?_
    intro u h
    simp at h
  | visual => exact stopOK_visualParse s
  | transformation =>
    refine stopOK_pbind (stopOK_nextE s) fun c1 s1 _ => ?_
    refine stopOK_pbind (stopOK_nextE s1) fun c2 s2 _ => ?_
    refine stopOK_pbind (stopOK_parseNumber s2) fun n s3 _ => ?_
    refine stopOK_pbind (stopOK_nextE s3) fun c3 s4 _ => ?_
    refine stopOK_pbind (stopOK_ptuc s4 _) ?_
    rintro ⟨se, ch1⟩ s5 _
    dsimp only
    refine stopOK_pbind (stopOK_ptuc s5 _) ?_
    rintro ⟨re, ch2⟩ s6 _
    dsimp only
    refine stopOK_pbind (stopOK_ptcb s6) fun op s7 _ => ?_
    intro u h
    simp at h
  | tabStop =>
    refine stopOK_pbind (stopOK_nextE s) fun c1 s1 _ => ?_
    refine stopOK_pbind (stopOK_nextE s1) fun c2 s2 _ => ?_
    refine stopOK_pbind (stopOK_parseNumber s2) fun n s3 _ => ?_
    refine stopOK_pbind (stopOK_ptcb (skipIfColon s3)) fun txt s4 _ => ?_
    intro u h
    simp at h
  | mirror =>
    refine stopOK_pbind (stopOK_nextE s) fun c1 s1 _ => ?_
    refine stopOK_pbind (stopOK_parseNumber s1) fun n s2 _ => ?_
    intro u h
    simp at h
  | pythonCode =>
    refine stopOK_pbind (stopOK_consumeN 3 s) fun a s1 _ => ?_
    refine stopOK_pbind (stopOK_pySkipOneWs s1) fun b s2 _ => ?_
    refine stopOK_pbind (stopOK_ptuc s2 _) ?_
    rintro ⟨code, ch⟩ s3 _
    dsimp only
    intro u h
    split at h
    · next e hde =>
      simp only [Except.error.injEq, Prod.mk.injEq] at h
      have := pyDedent_error hde
      rw [h.1] at this
      simp at this
    · simp at h
  | vimLCode =>
    refine stopOK_pbind (stopOK_consumeN 4 s) fun a s1 _ => ?_
    refine stopOK_pbind (stopOK_ptuc s1 _) ?_
    rintro ⟨code, ch⟩ s2 _
    dsimp only
    intro u h
    simp at h
  | shellCode =>
    refine stopOK_pbind (stopOK_nextE s) fun c1 s1 _ => ?_
    refine stopOK_pbind (stopOK_ptuc s1 _) ?_
    rintro ⟨code, ch⟩ s2 _
    dsimp only
    intro u h
    simp at h

theorem ge1_nextE (s : It) : GE1 s s.nextE := by
  intro a t h
  have := (next_some_spec (nextE_ok_elim h)).2.1
  omega

theorem ge1_pbind {α β : Type} {s : It} {x : PR α} {f : α → It → PR β}
    (hx : GE1 s x) (hf : ∀ a t, x = .ok (a, t) → Steps t (resState (f a t))) :
    GE1 s (pbind x f) := by
  intro b s' h
  obtain ⟨a, t, h1, h2⟩ := pbind_ok_elim h
  exact lt_of_lt_of_le (hx a t h1) (steps_ok h2 (hf a t h1)).2.1

theorem ge1_consumeN (n : Nat) (hn : 0 < n) (s : It) : GE1 s (consumeN n s) := by
  cases n with
  | zero => omega
  | succ m =>
    simp only [consumeN]
    exact ge1_pbind (ge1_nextE s) fun a t _ => steps_consumeN m t

theorem ge1_visualHead (s : It) : GE1 s (visualHead s) := by
  unfold visualHead
  exact ge1_pbind (ge1_consumeN 8 (by omega) s) fun a t _ =>
    steps_trans (steps_skipIfColon t) (steps_ptuc (skipIfColon t) _)

theorem ge1_parseToken (r : TokenClass) (indent : String) (s : It) :
    GE1 s (parseToken r indent s) := by
  cases r with
  | escapeChar =>
    exact ge1_pbind (ge1_nextE s) fun c1 s1 _ =>
      steps_pbind (steps_nextE s1) fun c2 s2 _ => steps_refl s2
  | visual =>
    show GE1 s (visualParse s)
    unfold visualParse
    refine ge1_pbind (ge1_visualHead s) ?_
    rintro ⟨txt, ch⟩ s1 _
    dsimp only
    split
    · have hts := steps_visualTransScans s1
      cases hv : visualTransScans s1 with
      | error e =>
        obtain ⟨e1, s2⟩ := e
        rw [hv] at hts
        cases e1 <;> exact hts
      | ok p =>
        obtain ⟨⟨se, re, op⟩, s2⟩ := p
        rw [hv] at hts
        exact hts
    · exact steps_refl s1
  | transformation =>
    refine ge1_pbind (ge1_nextE s) fun c1 s1 _ => ?_
    refine steps_pbind (steps_nextE s1) fun c2 s2 _ => ?_
    refine steps_pbind (steps_parseNumber s2) fun n s3 _ => ?_
    refine steps_pbind (steps_nextE s3) fun c3 s4 _ => ?_
    refine steps_pbind (steps_ptuc s4 _) ?_
    rintro ⟨se, ch1⟩ s5 _
    dsimp only
    refine steps_pbind (steps_ptuc s5 _) ?_
    rintro ⟨re, ch2⟩ s6 _
    dsimp only
    exact steps_pbind (steps_ptcb s6) fun op s7 _ => steps_refl s7
  | tabStop =>
    refine ge1_pbind (ge1_nextE s) fun c1 s1 _ => ?_
    refine steps_pbind (steps_nextE s1) fun c2 s2 _ => ?_
    refine steps_pbind (steps_parseNumber s2) fun n s3 _ => ?_
    exact steps_pbind
      (steps_trans (steps_skipIfColon s3) (steps_ptcb (skipIfColon s3)))
      fun txt s4 _ => steps_refl s4
  | mirror =>
    exact ge1_pbind (ge1_nextE s) fun c1 s1 _ =>
      steps_pbind (steps_parseNumber s1) fun n s2 _ => steps_refl s2
  | pythonCode =>
    refine ge1_pbind (ge1_consumeN 3 (by omega) s) fun a s1 _ => ?_
    refine steps_pbind (steps_pySkipOneWs s1) fun b s2 _ => ?_
    refine steps_pbind (steps_ptuc s2 _) ?_
    rintro ⟨code, ch⟩ s3 _
    dsimp only
    split
    · exact steps_refl s3
    · exact steps_refl s3
  | vimLCode =>
    refine ge1_pbind (ge1_consumeN 4 (by omega) s) fun a s1 _ => ?_
    refine steps_pbind (steps_ptuc s1 _) ?_
    rintro ⟨code, ch⟩ s2 _
    dsimp only
    exact steps_refl s2
  | shellCode =>
    refine ge1_pbind (ge1_nextE s) fun c1 s1 _ => ?_
    refine steps_pbind (steps_ptuc s1 _) ?_
    rintro ⟨code, ch⟩ s2 _
    dsimp only
    exact steps_refl s2

theorem noEOT_pbind {α : Type} {x : PR α} {f : α → It → PR TokenData}
    (hf : ∀ a t, x = .ok (a, t) → NoEOTRes (f a t)) : NoEOTRes (pbind x f) := by
  intro d s' h
  obtain ⟨a, t, h1, h2⟩ := pbind_ok_elim h
  exact hf a t h1 d s' h2

theorem noEOT_ok (d : TokenData) (t : It) (hd : d.isEOT = false) :
    NoEOTRes (.ok (d, t)) := by
  intro d' t' h
  simp only [Except.ok.injEq, Prod.mk.injEq] at h
  rw [← h.1]
  exact hd

theorem noEOT_error (e : LexErr × It) : NoEOTRes (.error e) := by
  intro d t h
  simp at h

theorem noEOT_parseToken (r : TokenClass) (indent : String) (s : It) :
    NoEOTRes (parseToken r indent s) := by
  cases r with
  | escapeChar =>
    refine noEOT_pbind fun c1 s1 _ => noEOT_pbind fun c2 s2 _ => ?_
    exact noEOT_ok (.escapeChar c2) s2 rfl
  | visual =>
    show NoEOTRes (visualParse s)
    unfold visualParse
    refine noEOT_pbind ?_
    rintro ⟨txt, ch⟩ s1 _
    dsimp only
    split
    · intro d t h
      split at h
      · simp at h
      · simp at h
      · next se re op s2 heq =>
        simp only [Except.ok.injEq, Prod.mk.injEq] at h
        rw [← h.1]
        rfl
    · exact noEOT_ok (.visual (unescape txt) none none none) s1 rfl
  | transformation =>
    refine noEOT_pbind fun c1 s1 _ => noEOT_pbind fun c2 s2 _ => ?_
    refine noEOT_pbind fun n s3 _ => noEOT_pbind fun c3 s4 _ => ?_
    refine noEOT_pbind ?_
    rintro ⟨se, ch1⟩ s5 _
    dsimp only
    refine noEOT_pbind ?_
    rintro ⟨re, ch2⟩ s6 _
    dsimp only
    exact noEOT_pbind fun op s7 _ => noEOT_ok (.transformation n se re op) s7 rfl
  | tabStop =>
    refine noEOT_pbind fun c1 s1 _ => noEOT_pbind fun c2 s2 _ => ?_
    exact noEOT_pbind fun n s3 _ => noEOT_pbind fun txt s4 _ =>
      noEOT_ok (.tabStop n txt) s4 rfl
  | mirror =>
    exact noEOT_pbind fun c1 s1 _ => noEOT_pbind fun n s2 _ =>
      noEOT_ok (.mirror n) s2 rfl
  | pythonCode =>
    refine noEOT_pbind fun a s1 _ => noEOT_pbind fun b s2 _ => ?_
    refine noEOT_pbind ?_
    rintro ⟨code, ch⟩ s3 _
    dsimp only
    intro d t h
    split at h
    · simp at h
    · next dedented heq =>
      simp only [Except.ok.injEq, Prod.mk.injEq] at h
      rw [← h.1]
      rfl
  | vimLCode =>
    refine noEOT_pbind fun a s1 _ => ?_
    refine noEOT_pbind ?_
    rintro ⟨code, ch⟩ s2 _
    dsimp only
    exact noEOT_ok (.vimLCode code) s2 rfl
  | shellCode =>
    refine noEOT_pbind fun c1 s1 _ => ?_
    refine noEOT_pbind ?_
    rintro ⟨code, ch⟩ s2 _
    dsimp only
    exact noEOT_ok (.shellCode code) s2 rfl

theorem firstMatch_eq (s : It) : firstMatch s =
    (if startsHere .escapeChar s then some TokenClass.escapeChar
     else if startsHere .visual s then some TokenClass.visual
     else if startsHere .transformation s then some TokenClass.transformation
     else if startsHere .tabStop s then some TokenClass.tabStop
     else if startsHere .mirror s then some TokenClass.mirror
     else if startsHere .pythonCode s then some TokenClass.pythonCode
     else if startsHere .vimLCode s then some TokenClass.vimLCode
     else if startsHere .shellCode s then some TokenClass.shellCode
     else none) := by
  unfold firstMatch allowedTokens
  simp only [List.find?]
  cases startsHere TokenClass.escapeChar s <;>
    cases startsHere TokenClass.visual s <;>
    cases startsHere TokenClass.transformation s <;>
    cases startsHere TokenClass.tabStop s <;>
    cases startsHere TokenClass.mirror s <;>
    cases startsHere TokenClass.pythonCode s <;>
    cases startsHere TokenClass.vimLCode s <;>
    cases startsHere TokenClass.shellCode s <;>
    rfl

theorem tokenizeLoopF_parse_ok {fuel : Nat} {indent : String} {s : It}
    {r : TokenClass} {d : TokenData} {s1 : It}
    (hm : firstMatch s = some r) (hp : parseToken r indent s = .ok (d, s1)) :
    tokenizeLoopF (fuel + 1) indent s =
      (Item.tok ⟨s.pos, s1.pos, s.idx, s1.idx, d⟩ :: (tokenizeLoopF fuel indent s1).1,
       (tokenizeLoopF fuel indent s1).2) := by
  simp only [tokenizeLoopF, hm, hp]

theorem tokenizeLoopF_parse_stop {fuel : Nat} {indent : String} {s : It}
    {r : TokenClass} {s1 : It}
    (hm : firstMatch s = some r)
    (hp : parseToken r indent s = .error (.stopIteration, s1)) :
    tokenizeLoopF (fuel + 1) indent s =
      ([Item.tok ⟨s1.pos, s1.pos, s1.idx, s1.idx, .endOfText⟩], none) := by
  simp only [tokenizeLoopF, hm, hp]

theorem tokenizeLoopF_parse_err {fuel : Nat} {indent : String} {s : It}
    {r : TokenClass} {e : LexErr} {s1 : It}
    (hm : firstMatch s = some r) (hp : parseToken r indent s = .error (e, s1))
    (he : e ≠ .stopIteration) :
    tokenizeLoopF (fuel + 1) indent s = ([], some e) := by
  cases e with
  | stopIteration => exact absurd rfl he
  | runtimeError m => simp only [tokenizeLoopF, hm, hp]
  | indexError => simp only [tokenizeLoopF, hm, hp]
  | typeError => simp only [tokenizeLoopF, hm, hp]
  | valueError => simp only [tokenizeLoopF, hm, hp]

theorem tokenizeLoopF_none_next {fuel : Nat} {indent : String} {s : It}
    {c : Char} {s1 : It}
    (hm : firstMatch s = none) (hn : s.next = some (c, s1)) :
    tokenizeLoopF (fuel + 1) indent s =
      (Item.plain s.idx c :: (tokenizeLoopF fuel indent s1).1,
       (tokenizeLoopF fuel indent s1).2) := by
  simp only [tokenizeLoopF, hm, hn]

theorem tokenizeLoopF_none_end {fuel : Nat} {indent : String} {s : It}
    (hm : firstMatch s = none) (hn : s.next = none) :
    tokenizeLoopF (fuel + 1) indent s =
      ([Item.tok ⟨s.pos, s.pos, s.idx, s.idx, .endOfText⟩], none) := by
  simp only [tokenizeLoopF, hm, hn]

theorem loop_items_shape : ∀ (fuel : Nat) (indent : String) (s : It) (items : List Item),
    tokenizeLoopF fuel indent s = (items, none) →
    ∃ pre t, items = pre ++ [Item.tok t] ∧ t.data = .endOfText ∧
      ∀ x ∈ pre, x.isEOT = false := by
  intro fuel
  induction fuel with
  | zero =>
    intro indent s items h
    simp [tokenizeLoopF] at h
  | succ fuel ih =>
    intro indent s items h
    cases hm : firstMatch s with
    | some r =>
      cases hp : parseToken r indent s with
      | ok p =>
        obtain ⟨d, s1⟩ := p
        rw [tokenizeLoopF_parse_ok hm hp] at h
        simp only [Prod.mk.injEq] at h
        obtain ⟨h1, h2⟩ := h
        have hR : tokenizeLoopF fuel indent s1 = ((tokenizeLoopF fuel indent s1).1, none) := by
          rw [← h2]
        obtain ⟨pre, t, hpre, ht, hall⟩ := ih indent s1 _ hR
        refine ⟨Item.tok ⟨s.pos, s1.pos, s.idx, s1.idx, d⟩ :: pre, t, ?_, ht, ?_⟩
        · rw [← h1, hpre]
          simp
        · intro x hx
          rcases List.mem_cons.mp hx with hx1 | hx2
          · rw [hx1]
            exact noEOT_parseToken r indent s d s1 hp
          · exact hall x hx2
      | error p =>
        obtain ⟨e, s1⟩ := p
        cases e with
        | stopIteration =>
          rw [tokenizeLoopF_parse_stop hm hp] at h
          simp only [Prod.mk.injEq] at h
          exact ⟨[], _, h.1.symm, rfl, by simp⟩
        | runtimeError m =>
          rw [tokenizeLoopF_parse_err hm hp (by simp)] at h
          simp at h
        | indexError =>
          rw [tokenizeLoopF_parse_err hm hp (by simp)] at h
          simp at h
        | typeError =>
          rw [tokenizeLoopF_parse_err hm hp (by simp)] at h
          simp at h
        | valueError =>
          rw [tokenizeLoopF_parse_err hm hp (by simp)] at h
          simp at h
    | none =>
      cases hn : s.next with
      | some p =>
        obtain ⟨c, s1⟩ := p
        rw [tokenizeLoopF_none_next hm hn] at h
        simp only [Prod.mk.injEq] at h
        obtain ⟨h1, h2⟩ := h
        have hR : tokenizeLoopF fuel indent s1 = ((tokenizeLoopF fuel indent s1).1, none) := by
          rw [← h2]
        obtain ⟨pre, t, hpre, ht, hall⟩ := ih indent s1 _ hR
        refine ⟨Item.plain s.idx c :: pre, t, ?_, ht, ?_⟩
        · rw [← h1, hpre]
          simp
        · intro x hx
          rcases List.mem_cons.mp hx with hx1 | hx2
          · rw [hx1]
            rfl
          · exact hall x hx2
      | none =>
        rw [tokenizeLoopF_none_end hm hn] at h
        simp only [Prod.mk.injEq] at h
        exact ⟨[], _, h.1.symm, rfl, by simp⟩

theorem sliceText_self (T : List Char) (i : Nat) : sliceText T i i = [] := by
  simp [sliceText]

theorem sliceText_glue {T : List Char} {i j k : Nat} (h1 : i ≤ j) (h2 : j ≤ k) :
    sliceText T i j ++ sliceText T j k = sliceText T i k := by
  unfold sliceText
  have hd : T.drop j = (T.drop i).drop (j - i) := by
    rw [List.drop_drop]
    congr 1
    omega
  rw [hd, show k - i = (j - i) + (k - j) by omega, List.take_add]

theorem itemsText_cons (T : List Char) (it : Item) (rest : List Item) :
    itemsText T (it :: rest) = itemText T it ++ itemsText T rest := by
  simp [itemsText]

theorem ItemsOrdered_cons {n lo : Nat} {it : Item} {rest : List Item} :
    ItemsOrdered n lo (it :: rest) ↔
      lo ≤ itemStart it ∧ itemStart it ≤ itemEnd it ∧ itemEnd it ≤ n ∧
        ItemsOrdered n (itemEnd it) rest := Iff.rfl

theorem sliceText_one {T : List Char} {i : Nat} {c : Char} (h : T[i]? = some c) :
    sliceText T i (i + 1) = [c] := by
  obtain ⟨hlt, heq⟩ := List.getElem?_eq_some_iff.mp h
  unfold sliceText
  rw [List.drop_eq_getElem_cons hlt]
  simp [heq]

theorem loop_reconstruction :
    ∀ (fuel : Nat) (indent : String) (s : It) (items : List Item),
    s.remaining < fuel → s.idx ≤ s.text.length →
    tokenizeLoopF fuel indent s = (items, none) →
    ItemsOrdered s.text.length s.idx items ∧
    ∃ m, s.idx ≤ m ∧ m ≤ s.text.length ∧
      itemsText s.text items = sliceText s.text s.idx m ∧
      (m = s.text.length ∨
        ∃ r sm se, sm.text = s.text ∧ sm.idx = m ∧ firstMatch sm = some r ∧
          parseToken r indent sm = .error (.stopIteration, se) ∧
          se.idx = s.text.length) := by
  intro fuel
  induction fuel with
  | zero =>
    intro indent s items hb hwf h
    omega
  | succ fuel ih =>
    intro indent s items hb hwf h
    cases hm : firstMatch s with
    | some r =>
      cases hp : parseToken r indent s with
      | ok p =>
        obtain ⟨d, s1⟩ := p
        rw [tokenizeLoopF_parse_ok hm hp] at h
        simp only [Prod.mk.injEq] at h
        obtain ⟨h1, h2⟩ := h
        subst h1
        have hR : tokenizeLoopF fuel indent s1 = ((tokenizeLoopF fuel indent s1).1, none) := by
          rw [← h2]
        have hst : Steps s s1 := steps_ok hp (steps_parseToken r indent s)
        have htext : s1.text = s.text := hst.1
        have hle : s.idx ≤ s1.idx := hst.2.1
        have hlt : s.idx < s1.idx := ge1_parseToken r indent s d s1 hp
        have hwf1 : s1.idx ≤ s1.text.length := steps_wf hst hwf
        have hrem : s1.remaining < fuel := by
          have e1 : s.remaining = s.text.length - s.idx := rfl
          have e2 : s1.remaining = s1.text.length - s1.idx := rfl
          rw [htext] at e2 hwf1
          omega
        obtain ⟨ho, m, hm1, hm2, hm3, hm4⟩ := ih indent s1 _ hrem (htext ▸ hwf1) hR
        rw [htext] at ho hm2 hm3 hm4
        constructor
        · refine ItemsOrdered_cons.mpr ⟨le_refl _, hlt.le, ?_, ho⟩
          rw [← htext]
          exact hwf1
        · refine ⟨m, le_trans hle hm1, hm2, ?_, hm4⟩
          calc itemsText s.text (Item.tok ⟨s.pos, s1.pos, s.idx, s1.idx, d⟩ ::
                  (tokenizeLoopF fuel indent s1).1)
              = sliceText s.text s.idx s1.idx ++
                  itemsText s.text (tokenizeLoopF fuel indent s1).1 := by
                rw [itemsText_cons]
                rfl
            _ = sliceText s.text s.idx s1.idx ++ sliceText s.text s1.idx m := by rw [hm3]
            _ = sliceText s.text s.idx m := sliceText_glue hle hm1
      | error p =>
        obtain ⟨e, s1⟩ := p
        cases e with
        | stopIteration =>
          rw [tokenizeLoopF_parse_stop hm hp] at h
          simp only [Prod.mk.injEq] at h
          have hst : Steps s s1 := steps_error hp (steps_parseToken r indent s)
          have htext : s1.text = s.text := hst.1
          have hle : s.idx ≤ s1.idx := hst.2.1
          have hwf1 : s1.idx ≤ s1.text.length := steps_wf hst hwf
          have hend : s.text.length ≤ s1.idx := by
            have := next_none_iff.mp (stopOK_parseToken r indent s s1 hp)
            rw [htext] at this
            exact this
          rw [← h.1]
          constructor
          · exact ⟨hle, le_refl _, by rw [htext] at hwf1; exact hwf1, trivial⟩
          · refine ⟨s.idx, le_refl _, hwf, by simp [itemsText, itemText, sliceText_self],
              Or.inr ⟨r, s, s1, rfl, rfl, hm, hp, ?_⟩⟩
            rw [htext] at hwf1
            omega
        | runtimeError m =>
          rw [tokenizeLoopF_parse_err hm hp (by simp)] at h
          simp at h
        | indexError =>
          rw [tokenizeLoopF_parse_err hm hp (by simp)] at h
          simp at h
        | typeError =>
          rw [tokenizeLoopF_parse_err hm hp (by simp)] at h
          simp at h
        | valueError =>
          rw [tokenizeLoopF_parse_err hm hp (by simp)] at h
          simp at h
    | none =>
      cases hn : s.next with
      | some p =>
        obtain ⟨c, s1⟩ := p
        rw [tokenizeLoopF_none_next hm hn] at h
        simp only [Prod.mk.injEq] at h
        obtain ⟨h1, h2⟩ := h
        have hR : tokenizeLoopF fuel indent s1 = ((tokenizeLoopF fuel indent s1).1, none) := by
          rw [← h2]
        obtain ⟨htext, hidx, hlen, hget⟩ := next_some_spec hn
        have hrem : s1.remaining < fuel := by
          have e1 : s.remaining = s.text.length - s.idx := rfl
          have e2 : s1.remaining = s1.text.length - s1.idx := rfl
          rw [htext] at e2
          omega
        have hwf1 : s1.idx ≤ s1.text.length := by
          rw [htext, hidx]
          omega
        obtain ⟨ho, m, hm1, hm2, hm3, hm4⟩ := ih indent s1 _ hrem hwf1 hR
        rw [htext] at ho hm2 hm3 hm4
        rw [hidx] at ho hm1 hm3
        constructor
        · rw [← h1]
          exact ⟨le_refl _, by simp [itemStart, itemEnd], by simp [itemEnd]; omega, ho⟩
        · refine ⟨m, by omega, hm2, ?_, hm4⟩
          rw [← h1]
          calc itemsText s.text (Item.plain s.idx c :: (tokenizeLoopF fuel indent s1).1)
              = [c] ++ itemsText s.text (tokenizeLoopF fuel indent s1).1 := by
                simp [itemsText, itemText]
            _ = sliceText s.text s.idx (s.idx + 1) ++ sliceText s.text (s.idx + 1) m := by
                rw [sliceText_one hget, hm3]
            _ = sliceText s.text s.idx m := sliceText_glue (by omega) (by omega)
      | none =>
        rw [tokenizeLoopF_none_end hm hn] at h
        simp only [Prod.mk.injEq] at h
        rw [← h.1]
        constructor
        · exact ⟨le_refl _, le_refl _, hwf, trivial⟩
        · refine ⟨s.idx, le_refl _, hwf, by simp [itemsText, itemText, sliceText_self],
            Or.inl ?_⟩
          have := next_none_iff.mp hn
          omega

theorem peek_big (s : It) {n : Nat} (h : 1 < n) :
    s.peek n = some ((s.text.drop s.idx).take n) := by
  unfold It.peek
  rw [if_pos h]

theorem escapeStartsHere_head {chars : List Char} {s : It}
    (h : escapeStartsHere chars s = true) :
    ∃ b rest, s.text.drop s.idx = '\\' :: b :: rest := by
  unfold escapeStartsHere at h
  rw [peek_big s (by omega)] at h
  cases hu : s.text.drop s.idx with
  | nil => rw [hu] at h; simp at h
  | cons a u1 =>
    cases u1 with
    | nil => rw [hu] at h; simp at h
    | cons b rest =>
      rw [hu] at h
      simp only [List.take_succ_cons, List.take_zero, Bool.and_eq_true,
        decide_eq_true_eq] at h
      exact ⟨b, rest, by rw [h.1]⟩

theorem matchTransformationWindow_shape {w : List Char}
    (h : matchTransformationWindow w = true) :
    ∃ c rest, w = '$' :: '{' :: c :: rest ∧ c.isDigit = true := by
  unfold matchTransformationWindow at h
  split at h
  · next c rest =>
    rw [Bool.and_eq_true] at h
    exact ⟨c, rest, rfl, h.1⟩
  · cases h

theorem matchVisualWindow_shape {w : List Char} (h : matchVisualWindow w = true) :
    ∃ c9 r9, w = '$' :: '{' :: 'V' :: 'I' :: 'S' :: 'U' :: 'A' :: 'L' :: c9 :: r9 := by
  unfold matchVisualWindow at h
  split at h
  · next c9 r9 => exact ⟨c9, r9, rfl⟩
  · cases h

theorem trans_not_visual {w : List Char} (h : matchTransformationWindow w = true) :
    matchVisualWindow w = false := by
  obtain ⟨c, rest, hw, hd⟩ := matchTransformationWindow_shape h
  cases hV : matchVisualWindow w with
  | false => rfl
  | true =>
    obtain ⟨c9, r9, hw2⟩ := matchVisualWindow_shape hV
    rw [hw] at hw2
    injection hw2 with e1 hw2
    injection hw2 with e2 hw2
    injection hw2 with e3 hw2
    rw [e3] at hd
    exact absurd hd (by decide)

theorem take_head_eq {u : List Char} {n : Nat} {a : Char} {t : List Char}
    (h : u.take (n + 1) = a :: t) : ∃ u1, u = a :: u1 := by
  cases u with
  | nil => simp at h
  | cons b u1 =>
    rw [List.take_succ_cons] at h
    injection h with h1 _
    exact ⟨u1, by rw [h1]⟩

theorem transformationStartsHere_head {s : It}
    (h : transformationStartsHere s = true) :
    ∃ c rest, s.text.drop s.idx = '$' :: '{' :: c :: rest ∧ c.isDigit = true := by
  unfold transformationStartsHere at h
  rw [peek_big s (by omega)] at h
  replace h : matchTransformationWindow ((s.text.drop s.idx).take 10) = true := h
  obtain ⟨c, rest0, hw, hd⟩ := matchTransformationWindow_shape h
  have hu := List.take_append_drop 10 (s.text.drop s.idx)
  rw [hw] at hu
  refine ⟨c, rest0 ++ (s.text.drop s.idx).drop 10, ?_, hd⟩
  conv_lhs => rw [← hu]
  simp

theorem transformation_firstMatch {s : It} (h : transformationStartsHere s = true) :
    firstMatch s = some .transformation := by
  obtain ⟨c, rest, hu, hd⟩ := transformationStartsHere_head h
  have hesc : startsHere .escapeChar s = false := by
    show escapeStartsHere defaultEscapeChars s = false
    cases hE : escapeStartsHere defaultEscapeChars s with
    | false => rfl
    | true =>
      obtain ⟨b, r2, hu2⟩ := escapeStartsHere_head hE
      rw [hu] at hu2
      simp at hu2
  have hvis : startsHere .visual s = false := by
    show visualStartsHere s = false
    unfold visualStartsHere
    rw [peek_big s (by omega)]
    show matchVisualWindow ((s.text.drop s.idx).take 10) = false
    apply trans_not_visual
    unfold transformationStartsHere at h
    rw [peek_big s (by omega)] at h
    exact h
  have hs : startsHere .transformation s = true := h
  rw [firstMatch_eq, hesc, hvis, hs]
  simp

theorem visual_firstMatch {s : It} (h : visualStartsHere s = true) :
    firstMatch s = some .visual := by
  have hw : matchVisualWindow ((s.text.drop s.idx).take 10) = true := by
    unfold visualStartsHere at h
    rw [peek_big s (by omega)] at h
    exact h
  obtain ⟨c9, r9, hsh⟩ := matchVisualWindow_shape hw
  obtain ⟨u1, hu⟩ := take_head_eq hsh
  have hesc : startsHere .escapeChar s = false := by
    show escapeStartsHere defaultEscapeChars s = false
    cases hE : escapeStartsHere defaultEscapeChars s with
    | false => rfl
    | true =>
      obtain ⟨b, r2, hu2⟩ := escapeStartsHere_head hE
      rw [hu] at hu2
      simp at hu2
  have hs : startsHere .visual s = true := h
  rw [firstMatch_eq, hesc, hs]
  simp

theorem digitsThenStop_iff (stops : List Char)
    (hstops : ∀ c ∈ stops, c.isDigit = false) :
    ∀ w : List Char, digitsThenStop stops w = true ↔
      ∃ ds c r, w = ds ++ c :: r ∧ (∀ d ∈ ds, d.isDigit = true) ∧
        stops.contains c = true := by
  intro w
  induction w with
  | nil =>
    constructor
    · intro h
      simp [digitsThenStop] at h
    · rintro ⟨ds, c, r, h, -, -⟩
      exact absurd h.symm (by simp)
  | cons a w ih =>
    simp only [digitsThenStop]
    by_cases ha : a.isDigit = true
    · rw [if_pos ha]
      constructor
      · intro h
        obtain ⟨ds, c, r, hw, hds, hc⟩ := ih.mp h
        refine ⟨a :: ds, c, r, by rw [hw]; rfl, ?_, hc⟩
        intro d hd
        rcases List.mem_cons.mp hd with h1 | h1
        · rw [h1]; exact ha
        · exact hds d h1
      · rintro ⟨ds, c, r, hw, hds, hc⟩
        cases ds with
        | nil =>
          replace hw : a :: w = c :: r := hw
          injection hw with h1 h2
          have hcm : c ∈ stops := by simpa using hc
          rw [← h1] at hcm
          exact absurd ha (by rw [hstops a hcm]; simp)
        | cons d ds1 =>
          replace hw : a :: w = d :: (ds1 ++ c :: r) := hw
          injection hw with h1 h2
          apply ih.mpr
          exact ⟨ds1, c, r, h2, fun x hx => hds x (List.mem_cons_of_mem _ hx), hc⟩
    · rw [if_neg ha]
      constructor
      · intro h
        exact ⟨[], a, w, rfl, by simp, h⟩
      · rintro ⟨ds, c, r, hw, hds, hc⟩
        cases ds with
        | nil =>
          replace hw : a :: w = c :: r := hw
          injection hw with h1 h2
          rw [h1]
          exact hc
        | cons d ds1 =>
          replace hw : a :: w = d :: (ds1 ++ c :: r) := hw
          injection hw with h1 h2
          exact absurd (h1 ▸ hds d (by simp)) ha

theorem matchTabStopWindow_iff (w : List Char) :
    matchTabStopWindow w = true ↔
      ∃ ds c r, w = '$' :: '{' :: (ds ++ c :: r) ∧ ds ≠ [] ∧
        (∀ d ∈ ds, d.isDigit = true) ∧ (c = ':' ∨ c = '}') := by
  have hstops : ∀ c ∈ ([':', '}'] : List Char), c.isDigit = false := by decide
  unfold matchTabStopWindow
  split
  · next c0 rest =>
    rw [Bool.and_eq_true]
    constructor
    · rintro ⟨hc0, hrest⟩
      obtain ⟨ds, c, r, hw, hds, hc⟩ := (digitsThenStop_iff _ hstops rest).mp hrest
      refine ⟨c0 :: ds, c, r, by rw [hw]; rfl, by simp, ?_, ?_⟩
      · intro d hd
        rcases List.mem_cons.mp hd with h1 | h1
        · rw [h1]; exact hc0
        · exact hds d h1
      · simpa using hc
    · rintro ⟨ds, c, r, hw, hne, hds, hcs⟩
      cases ds with
      | nil => simp at hne
      | cons d ds1 =>
        replace hw : '$' :: '{' :: c0 :: rest = '$' :: '{' :: d :: (ds1 ++ c :: r) := by
          simpa using hw
        injection hw with e1 hw
        injection hw with e2 hw
        injection hw with h1 h2
        refine ⟨h1 ▸ hds d (by simp), ?_⟩
        apply (digitsThenStop_iff _ hstops rest).mpr
        refine ⟨ds1, c, r, h2, fun x hx => hds x (List.mem_cons_of_mem _ hx), ?_⟩
        simpa using hcs
  · next x hno =>
    constructor
    · intro h
      cases h
    · rintro ⟨ds, c, r, hw, hne, hds, hcs⟩
      cases ds with
      | nil => exact (hno c r (by simpa using hw)).elim
      | cons d ds1 => exact (hno d (ds1 ++ c :: r) (by simpa using hw)).elim

theorem take_cons_pos (r : List Char) (c : Char) (m : Nat) (h : 0 < m) :
    (c :: r).take m = c :: r.take (m - 1) := by
  cases m with
  | zero => omega
  | succ k =>
    rw [List.take_succ_cons]
    simp

theorem matchTabStopWindow_take10 (u : List Char) :
    matchTabStopWindow (u.take 10) = true ↔ TabStopSpecPatWin u := by
  rw [matchTabStopWindow_iff]
  unfold TabStopSpecPatWin
  constructor
  · rintro ⟨ds, c, r, hw, hne, hds, hcs⟩
    have hlen : ('$' :: '{' :: (ds ++ c :: r)).length ≤ 10 := by
      rw [← hw]
      exact List.length_take_le _ _
    simp only [List.length_cons, List.length_append] at hlen
    have hu := List.take_append_drop 10 u
    rw [hw] at hu
    refine ⟨ds, c, r ++ u.drop 10, ?_, hne, hds, hcs, by omega⟩
    conv_lhs => rw [← hu]
    simp
  · rintro ⟨ds, c, r, hu, hne, hds, hcs, hlen⟩
    subst hu
    have h8 : ds.length ≤ 8 := by omega
    refine ⟨ds, c, r.take (7 - ds.length), ?_, hne, hds, hcs⟩
    rw [List.take_succ_cons, List.take_succ_cons, List.take_append_eq_append_take,
      List.take_of_length_le h8, take_cons_pos _ _ _ (by omega),
      show 8 - ds.length - 1 = 7 - ds.length by omega]

theorem tabStopStartsHere_iff (s : It) :
    tabStopStartsHere s = true ↔ TabStopSpecPatWin (s.text.drop s.idx) := by
  unfold tabStopStartsHere
  rw [peek_big s (by omega)]
  exact matchTabStopWindow_take10 _

theorem splitlinesAux_no_break : ∀ (cs acc : List Char),
    (∀ c ∈ cs, lineBreakChars.contains c = false) → acc.reverse ++ cs ≠ [] →
    splitlinesAux cs acc = [acc.reverse ++ cs] := by
  intro cs
  induction cs with
  | nil =>
    intro acc hnb hne
    have hacc : ¬acc.isEmpty = true := by
      simp only [List.isEmpty_iff]
      intro h
      exact hne (by simp [h])
    simp only [splitlinesAux]
    rw [if_neg hacc]
    simp
  | cons c cs1 ih =>
    intro acc hnb hne
    have hc : lineBreakChars.contains c = false := hnb c (by simp)
    cases cs1 with
    | nil =>
      simp only [splitlinesAux]
      rw [if_neg (by rw [hc]; simp)]
      simp
    | cons c2 rest =>
      have hcr : ¬c = '\x0d' := by
        intro h
        rw [h] at hc
        exact absurd hc (by decide)
      simp only [splitlinesAux]
      rw [if_neg hcr, if_neg (by rw [hc]; simp)]
      rw [ih (c :: acc) (fun x hx => hnb x (by simp [hx])) (by simp)]
      simp

theorem splitlinesPy_single {code : List Char} (hne : code ≠ [])
    (hnb : ∀ c ∈ code, lineBreakChars.contains c = false) :
    splitlinesPy code = [code] := by
  unfold splitlinesPy
  rw [splitlinesAux_no_break code [] hnb (by simpa using hne)]
  simp

theorem pyDedent_nonempty {indent : String} {code l0 : List Char}
    {rest : List (List Char)}
    (hind : indent.length ≠ 0) (hsplit : splitlinesPy code = l0 :: rest) :
    pyDedent indent code = .ok (l0 ++ '\n' ::
      List.intercalate ['\n'] (rest.map (List.drop indent.length))) := by
  unfold pyDedent
  rw [if_pos hind, hsplit]

theorem pyDedent_empty_indent (code : List Char) : pyDedent "" code = .ok code := by
  unfold pyDedent
  rw [if_neg (by simp)]

/-- C1 (amended): for every input on which tokenize completes without any
exception, the index spans of the yielded tokens are in bounds, pairwise
non-overlapping and non-decreasing, and concatenating the tokens' consumed
spans with the driver-discarded single characters, in order, reconstructs
the prefix of the input of some length m, so that this concatenation
followed by the remainder (drop m) is the whole input; and either m is the
whole input length (reconstruction is exact — in particular this holds
whenever no parse was abandoned), or the remainder is exactly what a final
partial parse consumed before being abandoned: at the state with index m
some recognizer matched, its parse raised end-of-input, and the state at the
raise point sits at the end of the input, so the abandoned parse consumed
precisely the characters from m to the end.  (As stated the claim is false:
a partial parse abandoned at end-of-input consumes input that is in no
yielded span and was not discarded by the driver, and a run aborted by an
uncaught IndexError also breaks reconstruction — see the counterexample.) -/
theorem c1_spans_reconstruction (text indent : String) (offset : Pos)
    (items : List Item) (h : tokenize text indent offset = (items, none)) :
    ItemsOrdered text.toList.length 0 items ∧
    ∃ m, m ≤ text.toList.length ∧
      itemsText text.toList items = text.toList.take m ∧
      itemsText text.toList items ++ text.toList.drop m = text.toList ∧
      (m = text.toList.length ∨
        ∃ r sm se, sm.text = text.toList ∧ sm.idx = m ∧ firstMatch sm = some r ∧
          parseToken r indent sm = .error (.stopIteration, se) ∧
          se.idx = text.toList.length) := by
  have hrec := loop_reconstruction _ indent ⟨text.toList, 0, offset.line, offset.col⟩
    items (Nat.lt_succ_self _) (Nat.zero_le _) h
  obtain ⟨ho, m, _, hm2, hm3, hm4⟩ := hrec
  have htake : sliceText text.toList 0 m = text.toList.take m := by
    simp [sliceText]
  refine ⟨ho, m, hm2, ?_, ?_, hm4⟩
  · rw [hm3, htake]
  · rw [hm3, htake]
    exact List.take_append_drop m _

/-- C1 counterexample, two parts.  First: tokenizing the input consisting of
a dollar, an open brace, the digit one, a slash and the letters f, o, o ends
without any exception (so in particular without a malformed-transformation
abort), yet the concatenation of the yielded tokens' spans and the
driver-discarded characters is empty and does not reconstruct the input:
all seven characters were consumed by the abandoned Transformation parse.
Second: with a non-empty indent, tokenizing a backtick, bang, p, space and
two backticks aborts with an IndexError — an exception that is not the
malformed-transformation RuntimeError for any message — after yielding
nothing, so that run does not reconstruct the input either; this is why the
amended hypothesis excludes every exception, not only the RuntimeError. -/
theorem c1_spans_counterexample :
    ((tokenize "$\x7b1/foo" "" ⟨0, 0⟩).2 = none ∧
      itemsText "$\x7b1/foo".toList (tokenize "$\x7b1/foo" "" ⟨0, 0⟩).1 ≠
        "$\x7b1/foo".toList) ∧
    (tokenize "`!p ``" "  " ⟨0, 0⟩ = ([], some .indexError) ∧
      (∀ msg : String, (LexErr.indexError = LexErr.runtimeError msg) → False) ∧
      itemsText "`!p ``".toList (tokenize "`!p ``" "  " ⟨0, 0⟩).1 ≠
        "`!p ``".toList) :=
  ⟨⟨by decide, by decide⟩,
   ⟨by decide, fun msg h => LexErr.noConfusion h, by decide⟩⟩

/-- Witness for C1 at a concrete input with a discarded character, a Mirror
token and the EndOfText token; the run has no abandoned parse and the
disjunct m = length holds. -/
theorem c1_spans_witness :
    ItemsOrdered "a$1".toList.length 0 (tokenize "a$1" "" ⟨0, 0⟩).1 ∧
    ∃ m, m ≤ "a$1".toList.length ∧
      itemsText "a$1".toList (tokenize "a$1" "" ⟨0, 0⟩).1 = "a$1".toList.take m ∧
      itemsText "a$1".toList (tokenize "a$1" "" ⟨0, 0⟩).1 ++ "a$1".toList.drop m =
        "a$1".toList ∧
      (m = "a$1".toList.length ∨
        ∃ r sm se, sm.text = "a$1".toList ∧ sm.idx = m ∧ firstMatch sm = some r ∧
          parseToken r "" sm = .error (.stopIteration, se) ∧
          se.idx = "a$1".toList.length) :=
  c1_spans_reconstruction "a$1" "" ⟨0, 0⟩ _ rfl

/-- C2: at every stream position the driver evaluates the recognizer
predicates in exactly the order EscapeChar, Visual, Transformation, TabStop,
Mirror, PythonCode, VimLCode, ShellCode and takes the first match; on a
match it parses and yields that recognizer's token; when no predicate
matches it consumes and discards exactly one character, which appears in no
yielded token. -/
theorem c2_driver_order (indent : String) (s : It) :
    (firstMatch s =
      (if startsHere .escapeChar s then some TokenClass.escapeChar
       else if startsHere .visual s then some TokenClass.visual
       else if startsHere .transformation s then some TokenClass.transformation
       else if startsHere .tabStop s then some TokenClass.tabStop
       else if startsHere .mirror s then some TokenClass.mirror
       else if startsHere .pythonCode s then some TokenClass.pythonCode
       else if startsHere .vimLCode s then some TokenClass.vimLCode
       else if startsHere .shellCode s then some TokenClass.shellCode
       else none)) ∧
    (∀ r d s1, firstMatch s = some r → parseToken r indent s = .ok (d, s1) →
      tokenizeLoopF (s.remaining + 1) indent s =
        (Item.tok ⟨s.pos, s1.pos, s.idx, s1.idx, d⟩ ::
            (tokenizeLoopF s.remaining indent s1).1,
         (tokenizeLoopF s.remaining indent s1).2)) ∧
    (∀ c s1, firstMatch s = none → s.next = some (c, s1) →
      tokenizeLoopF (s.remaining + 1) indent s =
        (Item.plain s.idx c :: (tokenizeLoopF s.remaining indent s1).1,
         (tokenizeLoopF s.remaining indent s1).2) ∧
      (tokenizeLoopF (s.remaining + 1) indent s).1.filterMap itemToken =
        (tokenizeLoopF s.remaining indent s1).1.filterMap itemToken) := by
  refine ⟨firstMatch_eq s, ?_, ?_⟩
  · intro r d s1 hm hp
    exact tokenizeLoopF_parse_ok hm hp
  · intro c s1 hm hn
    have he := @tokenizeLoopF_none_next s.remaining indent s c s1 hm hn
    refine ⟨he, ?_⟩
    rw [he]
    simp [List.filterMap_cons, itemToken]

/-- C3 (amended): for every input on which tokenize completes without an
exception, the yielded sequence contains exactly one EndOfText token and
that token is its last element.  (As stated over every input the claim is
false: a run aborted by the malformed-transformation error yields no
EndOfText at all — see the counterexample.) -/
theorem c3_end_of_text (text indent : String) (offset : Pos) (items : List Item)
    (h : tokenize text indent offset = (items, none)) :
    (items.filter Item.isEOT).length = 1 ∧
    ∃ pre t, items = pre ++ [Item.tok t] ∧ t.data = .endOfText ∧
      ∀ x ∈ pre, x.isEOT = false := by
  obtain ⟨pre, t, hpre, ht, hall⟩ :=
    loop_items_shape _ indent ⟨text.toList, 0, offset.line, offset.col⟩ items h
  subst hpre
  constructor
  · rw [List.filter_append]
    have hnil : pre.filter Item.isEOT = [] := by
      rw [List.filter_eq_nil_iff]
      intro a ha
      rw [hall a ha]
      simp
    rw [hnil]
    simp [Item.isEOT, TokenData.isEOT, ht]
  · exact ⟨pre, t, rfl, ht, hall⟩

/-- C3 counterexample: on the Visual input with an unterminated
transformation, tokenize raises and the yielded sequence contains zero
EndOfText tokens, not exactly one. -/
theorem c3_end_of_text_counterexample :
    ((tokenize "${VISUAL/a}" "" ⟨0, 0⟩).1.filter Item.isEOT).length = 0 ∧
    (tokenize "${VISUAL/a}" "" ⟨0, 0⟩).2 = some (.runtimeError visualErrMsg) := by
  decide

/-- Witness for C3 at the empty input. -/
theorem c3_end_of_text_witness :
    (((tokenize "" "" ⟨0, 0⟩).1.filter Item.isEOT).length = 1) ∧
    ∃ pre t, (tokenize "" "" ⟨0, 0⟩).1 = pre ++ [Item.tok t] ∧
      t.data = .endOfText ∧ ∀ x ∈ pre, x.isEOT = false :=
  c3_end_of_text "" "" ⟨0, 0⟩ _ rfl

/-- C4: when the Visual recognizer matches, its alternative-text scan stops
at a slash, and the subsequent search/replace/options scans exhaust the
stream (StopIteration), the parse raises the fatal malformed-transformation
RuntimeError, and the error propagates out of the whole tokenization call:
no token is yielded from that point and the run ends with the error. -/
theorem c4_visual_malformed (indent : String) (s s1 s2 : It) (txt : List Char)
    (hs : startsHere .visual s = true)
    (hh : visualHead s = .ok ((txt, '/'), s1))
    (ht : visualTransScans s1 = .error (.stopIteration, s2)) :
    visualParse s = .error (.runtimeError visualErrMsg, s2) ∧
    tokenizeLoopF (s.remaining + 1) indent s =
      ([], some (.runtimeError visualErrMsg)) := by
  have hvp : visualParse s = .error (.runtimeError visualErrMsg, s2) := by
    unfold visualParse
    rw [hh]
    simp only [pbind]
    rw [if_pos trivial, ht]
  refine ⟨hvp, ?_⟩
  have hm : firstMatch s = some .visual := visual_firstMatch hs
  exact tokenizeLoopF_parse_err hm hvp (by simp)

/-- Witness for C4: tokenizing the Visual input with an unterminated
transformation fails with the malformed-transformation error and yields
nothing. -/
theorem c4_visual_malformed_witness :
    visualParse ⟨"${VISUAL/a}".toList, 0, 0, 0⟩ =
      .error (.runtimeError visualErrMsg, ⟨"${VISUAL/a}".toList, 11, 0, 11⟩) ∧
    tokenize "${VISUAL/a}" "" ⟨0, 0⟩ = ([], some (.runtimeError visualErrMsg)) :=
  c4_visual_malformed "" ⟨"${VISUAL/a}".toList, 0, 0, 0⟩
    ⟨"${VISUAL/a}".toList, 9, 0, 9⟩ ⟨"${VISUAL/a}".toList, 11, 0, 11⟩ []
    (by decide) rfl rfl

/-- C5 (amended): the TabStop predicate holds exactly when the upcoming
input is a dollar and an open brace, then one to seven decimal digits, then
a colon or closing brace — the digit run must fit the ten-character
lookahead window together with its terminator.  The concrete nested-brace
example parses as the claim states.  (As stated, without the window bound,
the claim is false — see the counterexample with eight digits.) -/
theorem c5_tabstop_recognizer :
    (∀ s : It, tabStopStartsHere s = true ↔ TabStopSpecPatWin (s.text.drop s.idx)) ∧
    tokenize "${1:{nested}}" "" ⟨0, 0⟩ =
      ([Item.tok ⟨⟨0, 0⟩, ⟨0, 13⟩, 0, 13,
          .tabStop 1 ['\x7b', 'n', 'e', 's', 't', 'e', 'd', '\x7d']⟩,
        Item.tok ⟨⟨0, 13⟩, ⟨0, 13⟩, 13, 13, .endOfText⟩], none) := by
  constructor
  · exact tabStopStartsHere_iff
  · decide

/-- C5 counterexample: with eight digits the upcoming input fits the
claimed pattern (marker, one or more digits, closing brace), yet the
recognizer does not match, because the terminator lies outside the
ten-character lookahead window the regex is applied to. -/
theorem c5_tabstop_counterexample :
    TabStopSpecPat ("${12345678}".toList) ∧
    tabStopStartsHere ⟨"${12345678}".toList, 0, 0, 0⟩ = false := by
  constructor
  · exact ⟨['1', '2', '3', '4', '5', '6', '7', '8'], '}', [],
      by decide, by decide, by decide, by decide⟩
  · decide

/-- C6 (amended): with a non-empty indent, a PythonCode token's code is the
first scanned line, then a newline, then the remaining lines each with
len(indent) leading characters removed, joined by newlines; with an empty
indent the scanned code is kept verbatim.  (As stated — plain rejoining of
the lines — the claim is false for single-line code, which gains a trailing
newline; see the counterexample.) -/
theorem c6_python_dedent :
    (∀ (indent : String) (code l0 : List Char) (rest : List (List Char)),
      indent.length ≠ 0 → splitlinesPy code = l0 :: rest →
      pyDedent indent code = .ok (l0 ++ '\n' ::
        List.intercalate ['\n'] (rest.map (List.drop indent.length)))) ∧
    (∀ code : List Char, pyDedent "" code = .ok code) ∧
    tokenize "`!p a\n  b`" "  " ⟨0, 0⟩ =
      ([Item.tok ⟨⟨0, 0⟩, ⟨1, 4⟩, 0, 10, .pythonCode ['a', '\n', 'b'] "  "⟩,
        Item.tok ⟨⟨1, 4⟩, ⟨1, 4⟩, 10, 10, .endOfText⟩], none) := by
  refine ⟨fun indent code l0 rest hi hs => pyDedent_nonempty hi hs,
    fun code => pyDedent_empty_indent code, by decide⟩

/-- C6 counterexample: with indent two spaces and single-line scanned code
x, the resulting token's code is x followed by a newline, while the claim's
description (first line unchanged, subsequent lines stripped, rejoined with
newlines) yields just x. -/
theorem c6_python_dedent_counterexample :
    (tokenize "`!p x`" "  " ⟨0, 0⟩).1 =
      [Item.tok ⟨⟨0, 0⟩, ⟨0, 6⟩, 0, 6, .pythonCode ['x', '\n'] "  "⟩,
       Item.tok ⟨⟨0, 6⟩, ⟨0, 6⟩, 6, 6, .endOfText⟩] ∧
    (['x', '\n'] : List Char) ≠
      List.intercalate ['\n'] (splitlinesPy ['x']) := by
  decide

/-- C7: peek never fails and never consumes (it is a pure function of the
stream state): with n at least 1, a successful peek returns exactly the
next min n remaining characters, and near end-of-input it returns fewer
than n characters, or none (only in the single-character case) instead of
signaling an error. -/
theorem c7_peek_safe (s : It) (n : Nat) (hn : 1 ≤ n) :
    (∀ cs, s.peek n = some cs → cs.length = min n s.remaining ∧
      cs = (s.text.drop s.idx).take n) ∧
    (s.peek n = none → n = 1 ∧ s.remaining = 0) := by
  by_cases h1 : 1 < n
  · rw [peek_big s h1]
    constructor
    · intro cs hcs
      injection hcs with hcs
      subst hcs
      refine ⟨?_, rfl⟩
      rw [List.length_take, List.length_drop]
      rfl
    · intro h
      cases h
  · have hn1 : n = 1 := by omega
    subst hn1
    unfold It.peek
    rw [if_neg (by omega)]
    cases hg : s.text[s.idx]? with
    | some c =>
      constructor
      · intro cs hcs
        injection hcs with hcs
        subst hcs
        have hlt : s.idx < s.text.length := (List.getElem?_eq_some_iff.mp hg).1
        obtain ⟨hlt2, heq⟩ := List.getElem?_eq_some_iff.mp hg
        constructor
        · show 1 = min 1 s.remaining
          have : 1 ≤ s.remaining := by
            show 1 ≤ s.text.length - s.idx
            omega
          omega
        · rw [List.drop_eq_getElem_cons hlt, take_cons_pos _ _ _ (by omega)]
          simp [heq]
      · intro h
        cases h
    | none =>
      constructor
      · intro cs hcs
        cases hcs
      · intro _
        have := List.getElem?_eq_none_iff.mp hg
        refine ⟨rfl, ?_⟩
        show s.text.length - s.idx = 0
        omega

/-- Witness for C7 at a concrete two-character stream and lookahead 5. -/
theorem c7_peek_safe_witness :
    (∀ cs, (⟨['a', 'b'], 0, 0, 0⟩ : It).peek 5 = some cs →
      cs.length = min 5 (⟨['a', 'b'], 0, 0, 0⟩ : It).remaining ∧
      cs = ((⟨['a', 'b'], 0, 0, 0⟩ : It).text.drop
        (⟨['a', 'b'], 0, 0, 0⟩ : It).idx).take 5) ∧
    ((⟨['a', 'b'], 0, 0, 0⟩ : It).peek 5 = none →
      5 = 1 ∧ (⟨['a', 'b'], 0, 0, 0⟩ : It).remaining = 0) :=
  c7_peek_safe ⟨['a', 'b'], 0, 0, 0⟩ 5 (by omega)

/-- C8: when the Transformation recognizer matches and its parse exhausts
the stream (for example on the input dollar, open brace, one, slash, f, o,
o), the end-of-input signal escaping the partial parse is caught by the
driver: no error is raised, the partially parsed Transformation token is
never yielded, and the sequence ends normally with the single EndOfText
token. -/
theorem c8_partial_parse_silent (indent : String) (s s1 : It)
    (hs : startsHere .transformation s = true)
    (hp : parseToken .transformation indent s = .error (.stopIteration, s1)) :
    tokenizeLoopF (s.remaining + 1) indent s =
      ([Item.tok ⟨s1.pos, s1.pos, s1.idx, s1.idx, .endOfText⟩], none) := by
  have hm : firstMatch s = some .transformation := transformation_firstMatch hs
  exact tokenizeLoopF_parse_stop hm hp

/-- Witness for C8: the unterminated transformation input yields exactly one
EndOfText token and no error. -/
theorem c8_partial_parse_silent_witness :
    tokenize "$\x7b1/foo" "" ⟨0, 0⟩ =
      ([Item.tok ⟨⟨0, 7⟩, ⟨0, 7⟩, 7, 7, .endOfText⟩], none) :=
  c8_partial_parse_silent "" ⟨"$\x7b1/foo".toList, 0, 0, 0⟩
    ⟨"$\x7b1/foo".toList, 7, 0, 7⟩ (by decide) rfl

/-- C9: for a PythonCode token whose scanned code is a single line (no
line-break characters, non-empty), a non-empty caller-supplied indent makes
the resulting code that line with a newline appended, whereas the empty
indent keeps the scanned code verbatim, that is, the line without a
trailing newline. -/
theorem c9_single_line_python (code : List Char) (hne : code ≠ [])
    (hnb : ∀ c ∈ code, lineBreakChars.contains c = false) :
    (∀ indent : String, indent.length ≠ 0 →
      pyDedent indent code = .ok (code ++ ['\n'])) ∧
    pyDedent "" code = .ok code := by
  have hs : splitlinesPy code = [code] := splitlinesPy_single hne hnb
  constructor
  · intro indent hi
    rw [pyDedent_nonempty hi hs]
    simp [List.intercalate]
  · exact pyDedent_empty_indent code

/-- Witness for C9 at the single-character code x. -/
theorem c9_single_line_python_witness :
    (∀ indent : String, indent.length ≠ 0 →
      pyDedent indent ['x'] = .ok (['x'] ++ ['\n'])) ∧
    pyDedent "" ['x'] = .ok ['x'] :=
  c9_single_line_python ['x'] (by decide) (by decide)

/-- C10: consuming a character advances the index by one and updates the
position: the line number is incremented with the column reset to zero
exactly when the consumed character is a newline; every other character,
including a carriage return, increments the column and keeps the line. -/
theorem c10_next_position (s : It) (c : Char) (s' : It)
    (h : s.next = some (c, s')) :
    s'.text = s.text ∧ s'.idx = s.idx + 1 ∧
      (c = '\n' → s'.line = s.line + 1 ∧ s'.col = 0) ∧
      (c ≠ '\n' → s'.line = s.line ∧ s'.col = s.col + 1) := by
  have hg := (next_some_spec h).2.2.2
  simp only [It.next, hg] at h
  by_cases hc : c = '\n'
  · rw [if_pos (Or.inl (by rw [hc]; rfl))] at h
    simp only [Option.some.injEq, Prod.mk.injEq] at h
    obtain ⟨-, hs⟩ := h
    subst hs
    exact ⟨rfl, rfl, fun _ => ⟨rfl, rfl⟩, fun hne => absurd hc hne⟩
  · have hcond : ¬([c] = "\n".toList ∨ [c] = "\r\n".toList) := by
      rintro (h1 | h1)
      · exact hc (by simpa using h1)
      · simp at h1
    rw [if_neg hcond] at h
    simp only [Option.some.injEq, Prod.mk.injEq] at h
    obtain ⟨-, hs⟩ := h
    subst hs
    exact ⟨rfl, rfl, fun hcc => absurd hcc hc, fun _ => ⟨rfl, rfl⟩⟩

/-- Witness for C10 at a carriage-return character: the column advances and
the line is unchanged. -/
theorem c10_next_position_witness :
    ∃ s' : It, (⟨['\x0d'], 0, 4, 6⟩ : It).next = some ('\x0d', s') ∧
      s'.line = 4 ∧ s'.col = 7 ∧ s'.idx = 1 := by
  have h := c10_next_position ⟨['\x0d'], 0, 4, 6⟩ '\x0d' ⟨['\x0d'], 1, 4, 7⟩ (by decide)
  exact ⟨⟨['\x0d'], 1, 4, 7⟩, by decide, (h.2.2.2 (by decide)).1, (h.2.2.2 (by decide)).2, rfl⟩

end UltiSnipsLexer
